import Mathlib

/-!
Verification development for the gazette extraction pipeline
(`segmenter.py`, `body_refind.py`, `ORG_SECUNDARY.py`).

Texts are shallowly embedded as `List Char` (Python strings indexed by
character position).  The Python character-class functions (`str.isspace`,
`str.isalpha`, `str.upper`, NFKD diacritic stripping) are modelled by
explicit tables covering the character universe exercised by the pipeline:
ASCII, the Latin-1 letter block (U+00C0..U+00FF), the Latin-Extended pair
'Ā'/'ā', the combining marks U+0302/U+0304, and common punctuation.
-/

namespace Gazette

/-- Python `str.isspace` on the modelled universe: ASCII whitespace plus
the no-break space. -/
def pyIsSpace : Char → Bool
  | ' ' | '\t' | '\n' | '\r' | '\x0b' | '\x0c' | ' ' => true
  | _ => false

def asciiUpperAlpha (c : Char) : Bool := "ABCDEFGHIJKLMNOPQRSTUVWXYZ".toList.contains c

def asciiLowerAlpha (c : Char) : Bool := "abcdefghijklmnopqrstuvwxyz".toList.contains c

def asciiAlpha (c : Char) : Bool := asciiUpperAlpha c || asciiLowerAlpha c

/-- Uppercase letters of the Latin-1 block (U+00C0..U+00DE minus '×'). -/
def latin1UpperAlpha (c : Char) : Bool :=
  "ÀÁÂÃÄÅÆÇÈÉÊËÌÍÎÏÐÑÒÓÔÕÖØÙÚÛÜÝÞ".toList.contains c

/-- Lowercase letters of the Latin-1 block (U+00DF..U+00FF minus '÷'). -/
def latin1LowerAlpha (c : Char) : Bool :=
  "ßàáâãäåæçèéêëìíîïðñòóôõöøùúûüýþÿ".toList.contains c

/-- Python `str.isalpha` on the modelled universe.  Note that 'Ā' (U+0100)
and 'ā' (U+0101) are alphabetic for Python although they lie outside the
regex class `[A-Za-zÀ-ÿ]`; combining marks are not alphabetic. -/
def pyIsAlpha (c : Char) : Bool :=
  asciiAlpha c || latin1UpperAlpha c || latin1LowerAlpha c || c == 'Ā' || c == 'ā'

def pyIsDigit (c : Char) : Bool := "0123456789".toList.contains c

def pyIsAlnum (c : Char) : Bool := pyIsAlpha c || pyIsDigit c

/-- Word character for Python's regex `\b` (unicode mode on the modelled
universe): alphanumeric or underscore. -/
def pyIsWordChar (c : Char) : Bool := pyIsAlnum c || c == '_'

/-- The lowercase-to-uppercase table of Python `str.upper` on the
modelled universe.  The value is a string because 'ß'.upper() = "SS";
'ÿ' maps to 'Ÿ' (U+0178) and 'ā' to 'Ā'. -/
def upperTable : List (Char × List Char) :=
  ((List.zip "abcdefghijklmnopqrstuvwxyz".toList
      "ABCDEFGHIJKLMNOPQRSTUVWXYZ".toList).map fun p => (p.1, [p.2])) ++
  ((List.zip "àáâãäåæçèéêëìíîïðñòóôõöøùúûüýþ".toList
      "ÀÁÂÃÄÅÆÇÈÉÊËÌÍÎÏÐÑÒÓÔÕÖØÙÚÛÜÝÞ".toList).map fun p => (p.1, [p.2])) ++
  [('ß', ['S', 'S']), ('ÿ', ['Ÿ']), ('ā', ['Ā'])]

/-- Python `str.upper` per character: table lookup, identity outside the
table (uppercase letters, digits, punctuation, combining marks). -/
def pyUpperChar (c : Char) : List Char :=
  match upperTable.find? fun p => p.1 == c with
  | some p => p.2
  | none => [c]

def pyUpperStr (l : List Char) : List Char := (l.map pyUpperChar).flatten

/-- NFKD base character for the precomposed Latin-1 letters of the
modelled universe ('ß', 'Ø', 'ø' and ASCII have no decomposition). -/
def baseOfDiacritic : Char → Option Char
  | 'À' | 'Á' | 'Â' | 'Ã' | 'Ä' | 'Å' => some 'A'
  | 'Ç' => some 'C'
  | 'È' | 'É' | 'Ê' | 'Ë' => some 'E'
  | 'Ì' | 'Í' | 'Î' | 'Ï' => some 'I'
  | 'Ñ' => some 'N'
  | 'Ò' | 'Ó' | 'Ô' | 'Õ' | 'Ö' => some 'O'
  | 'Ù' | 'Ú' | 'Û' | 'Ü' => some 'U'
  | 'Ý' => some 'Y'
  | 'à' | 'á' | 'â' | 'ã' | 'ä' | 'å' => some 'a'
  | 'ç' => some 'c'
  | 'è' | 'é' | 'ê' | 'ë' => some 'e'
  | 'ì' | 'í' | 'î' | 'ï' => some 'i'
  | 'ñ' => some 'n'
  | 'ò' | 'ó' | 'ô' | 'õ' | 'ö' => some 'o'
  | 'ù' | 'ú' | 'û' | 'ü' => some 'u'
  | 'ý' | 'ÿ' => some 'y'
  | 'Ā' => some 'A'
  | 'ā' => some 'a'
  | _ => none

def isCombiningMark : Char → Bool
  | '̂' | '̄' => true
  | _ => false

/-- NFKD per character followed by dropping combining marks, as in
`_strip_diacritics` of body_refind.py applied to a single character. -/
def stripDiacriticsChar (c : Char) : List Char :=
  if isCombiningMark c then []
  else
    match baseOfDiacritic c with
    | some b => [b]
    | none => [c]

/-- `_strip_diacritics` of body_refind.py. -/
def strip_diacritics (l : List Char) : List Char := (l.map stripDiacriticsChar).flatten

/-- The normalized unit of one body character:
`_strip_diacritics(ch).upper()` from `_build_normalized_body_with_map`. -/
def chNormUnit (c : Char) : List Char := pyUpperStr (stripDiacriticsChar c)

/-- Python `l[a:b]` slicing on character lists. -/
def pySlice (l : List Char) (a b : Nat) : List Char := (l.drop a).take (b - a)

/-- Helper for `wordsBy`: `acc` holds the current chunk reversed. -/
def wordsByAcc (p : Char → Bool) (acc : List Char) : List Char → List (List Char)
  | [] => if acc = [] then [] else [acc.reverse]
  | c :: rest =>
    if p c then
      if acc = [] then wordsByAcc p [] rest
      else acc.reverse :: wordsByAcc p [] rest
    else wordsByAcc p (c :: acc) rest

/-- Split into maximal runs of characters not satisfying `p`
(Python `s.split()` / `re.split` on separator runs, empty chunks dropped). -/
def wordsBy (p : Char → Bool) (l : List Char) : List (List Char) := wordsByAcc p [] l

/-- `" ".join(words)`. -/
def joinWords : List (List Char) → List Char
  | [] => []
  | [w] => w
  | w :: ws => w ++ ' ' :: joinWords ws

/-- `_collapse_ws` of segmenter.py: `" ".join(s.split())`. -/
def pyCollapseWs (l : List Char) : List Char := joinWords (wordsBy pyIsSpace l)

/-- Drop trailing characters satisfying `p`. -/
def dropTrail (p : Char → Bool) (l : List Char) : List Char := (l.reverse.dropWhile p).reverse

/-- Python `s.strip(set)`: trim characters of `cs` from both ends. -/
def stripSet (cs : List Char) (l : List Char) : List Char :=
  dropTrail (fun c => cs.contains c) (l.dropWhile (fun c => cs.contains c))

/-- Python `s.strip()` (whitespace from both ends). -/
def pyStrip (l : List Char) : List Char := dropTrail pyIsSpace (l.dropWhile pyIsSpace)

/-- A spaCy entity span: character offsets, label and surface text. -/
structure Span where
  start_char : Nat
  end_char : Nat
  label : String
  text : List Char
deriving DecidableEq, Repr

/-- Stable insertion sort (model of Python's stable `sorted`): `x` is
placed before the first element not strictly preceding it. -/
def insertLe {α : Type} (le : α → α → Bool) (x : α) : List α → List α
  | [] => [x]
  | y :: ys => if le x y then x :: y :: ys else y :: insertLe le x ys

def sortLe {α : Type} (le : α → α → Bool) (l : List α) : List α :=
  l.foldr (insertLe le) []

/-- Sort key `(start_char, -end_char)` of `_ents_in_order`. -/
def entLe (a b : Span) : Bool :=
  decide (a.start_char < b.start_char ∨
    (a.start_char = b.start_char ∧ b.end_char ≤ a.end_char))

def ents_in_order (l : List Span) : List Span := sortLe entLe l

/-- `_norm_org` of segmenter.py: `_collapse_ws(s).upper().strip(",.;:")`.
Note: no diacritic stripping happens here. -/
def norm_org (l : List Char) : List Char :=
  stripSet [',', '.', ';', ':'] (pyUpperStr (pyCollapseWs l))

/-- The `(start_char, normalized key)` sequence of the ORG spans, in
`_ents_in_order` order. -/
def orgKeys (l : List Span) : List (Nat × List Char) :=
  l.filterMap fun e =>
    if e.label = "ORG" then some (e.start_char, norm_org e.text) else none

/-- The scan loop of `_find_body_start_with_first_repeated_org`: `seen`
holds the normalized keys met so far; the first key met twice returns
its span's start offset. -/
def findRepeatedFrom (seen : List (List Char)) : List (Nat × List Char) → Option Nat
  | [] => none
  | (st, k) :: rest =>
    if k ∈ seen then some st else findRepeatedFrom (k :: seen) rest

/-- `_find_body_start_with_first_repeated_org` of segmenter.py:
start offset of the first ORG whose `_norm_org` key was already seen,
else the document length. -/
def find_body_start_with_first_repeated_org (textLen : Nat) (ents : List Span) : Nat :=
  (findRepeatedFrom [] (orgKeys (ents_in_order ents))).getD textLen

/-- Modelled from the spec: the ORG-name normalization as claim C3 words
it, i.e. additionally stripping diacritics before comparison.  Used only
to compare the claim's normalizer with the source's `_norm_org`. -/
def specNormOrgClaim (l : List Char) : List Char :=
  stripSet [',', '.', ';', ':'] (pyUpperStr (pyCollapseWs (strip_diacritics l)))

theorem findRepeatedFrom_eq_none (seen : List (List Char)) (l : List (Nat × List Char))
    (hnd : (l.map Prod.snd).Nodup) (hs : ∀ k ∈ l.map Prod.snd, k ∉ seen) :
    findRepeatedFrom seen l = none := by
  induction l generalizing seen with
  | nil => rfl
  | cons hd tl ih =>
    obtain ⟨st, k⟩ := hd
    simp only [List.map_cons, List.nodup_cons, List.mem_cons] at hnd hs
    have hk : k ∉ seen := hs k (Or.inl rfl)
    show (if k ∈ seen then some st else findRepeatedFrom (k :: seen) tl) = none
    rw [if_neg hk]
    refine ih (k :: seen) hnd.2 ?_
    intro k' hk'
    simp only [List.mem_cons]
    push_neg
    exact ⟨fun he => hnd.1 (he ▸ hk'), hs k' (Or.inr hk')⟩

theorem findRepeatedFrom_eq_some (seen : List (List Char)) (l : List (Nat × List Char))
    (i : Nat) (h : i < l.length)
    (hnd : ((l.map Prod.snd).take i).Nodup)
    (hs : ∀ k ∈ (l.map Prod.snd).take i, k ∉ seen)
    (hmem : (l.get ⟨i, h⟩).2 ∈ (l.map Prod.snd).take i ∨ (l.get ⟨i, h⟩).2 ∈ seen) :
    findRepeatedFrom seen l = some (l.get ⟨i, h⟩).1 := by
  induction l generalizing seen i with
  | nil => exact absurd h (Nat.not_lt_zero i)
  | cons hd tl ih =>
    obtain ⟨st, k⟩ := hd
    match i with
    | 0 =>
      have hmem' : k ∈ ([] : List (List Char)) ∨ k ∈ seen := hmem
      have hk : k ∈ seen := hmem'.resolve_left (List.not_mem_nil k)
      show (if k ∈ seen then some st else findRepeatedFrom (k :: seen) tl) = some st
      rw [if_pos hk]
    | j + 1 =>
      have hj : j < tl.length := Nat.lt_of_succ_lt_succ h
      have hnd' : (k :: (tl.map Prod.snd).take j).Nodup := hnd
      have hs' : ∀ k' ∈ k :: (tl.map Prod.snd).take j, k' ∉ seen := hs
      have hmem' : (tl.get ⟨j, hj⟩).2 ∈ k :: (tl.map Prod.snd).take j ∨
          (tl.get ⟨j, hj⟩).2 ∈ seen := hmem
      rw [List.nodup_cons] at hnd'
      have hk : k ∉ seen := hs' k (List.mem_cons_self _ _)
      show (if k ∈ seen then some st else findRepeatedFrom (k :: seen) tl) =
        some ((tl.get ⟨j, hj⟩).1)
      rw [if_neg hk]
      refine ih (k :: seen) j hj hnd'.2 ?_ ?_
      · intro k' hk'
        simp only [List.mem_cons]
        push_neg
        exact ⟨fun he => hnd'.1 (he ▸ hk'), hs' k' (List.mem_cons_of_mem _ hk')⟩
      · rcases hmem' with hm | hsn
        · rcases List.mem_cons.mp hm with he | hm'
          · exact Or.inr (he ▸ List.mem_cons_self _ _)
          · exact Or.inl hm'
        · exact Or.inr (List.mem_cons_of_mem _ hsn)

/-- Claim C3 counterexample: `_norm_org` does **not** strip diacritics.
The two ORG texts "CÂMARA" and "CAMARA" are identical under the claim's
normalizer, so the claim predicts the split at the second occurrence
(offset 10); the code finds no repeat and returns the document length. -/
theorem c3_counterexample :
    specNormOrgClaim "CÂMARA".toList = specNormOrgClaim "CAMARA".toList ∧
    norm_org "CÂMARA".toList ≠ norm_org "CAMARA".toList ∧
    find_body_start_with_first_repeated_org 30
      [⟨0, 6, "ORG", "CÂMARA".toList⟩, ⟨10, 16, "ORG", "CAMARA".toList⟩] = 30 ∧
    (30 : Nat) ≠ 10 := by
  refine ⟨by decide, by decide, by decide, by decide⟩

/-- Claim C3 amended: the splitter normalizes each ORG text by collapsing
whitespace, uppercasing and trimming the characters ",.;:" from both ends
(without stripping diacritics); scanning ORG spans in `(start, -end)`
order, the split point is the start offset of the first ORG whose
normalized text was already seen, and if no normalized ORG name repeats
the split point is the end of the document. -/
theorem c3_amended (ents : List Span) (textLen : Nat) :
    (((orgKeys (ents_in_order ents)).map Prod.snd).Nodup →
      find_body_start_with_first_repeated_org textLen ents = textLen) ∧
    (∀ i (h : i < (orgKeys (ents_in_order ents)).length),
      (((orgKeys (ents_in_order ents)).map Prod.snd).take i).Nodup →
      ((orgKeys (ents_in_order ents)).get ⟨i, h⟩).2 ∈
        ((orgKeys (ents_in_order ents)).map Prod.snd).take i →
      find_body_start_with_first_repeated_org textLen ents =
        ((orgKeys (ents_in_order ents)).get ⟨i, h⟩).1) := by
  constructor
  · intro hnd
    unfold find_body_start_with_first_repeated_org
    rw [findRepeatedFrom_eq_none [] _ hnd (by intro k _; exact List.not_mem_nil k)]
    rfl
  · intro i h hnd hmem
    unfold find_body_start_with_first_repeated_org
    rw [findRepeatedFrom_eq_some [] _ i h hnd
      (by intro k _; exact List.not_mem_nil k) (Or.inl hmem)]
    rfl

/-- Witness for `c3_amended` at concrete inputs: a roster with the key
"AB" repeated splits at the second occurrence (offset 5); a roster with
distinct keys returns the document length. -/
theorem c3_amended_witness :
    find_body_start_with_first_repeated_org 99
      [⟨0, 2, "ORG", "AB".toList⟩, ⟨5, 7, "ORG", "AB".toList⟩] = 5 ∧
    find_body_start_with_first_repeated_org 77
      [⟨0, 2, "ORG", "AB".toList⟩, ⟨5, 7, "ORG", "CD".toList⟩] = 77 := by
  constructor
  · have h := (c3_amended [⟨0, 2, "ORG", "AB".toList⟩, ⟨5, 7, "ORG", "AB".toList⟩] 99).2
      1 (by decide) (by decide) (by decide)
    exact h.trans (by decide)
  · have h := (c3_amended [⟨0, 2, "ORG", "AB".toList⟩, ⟨5, 7, "ORG", "CD".toList⟩] 77).1
      (by decide)
    exact h

/-! ## Relation builder (ORG_SECUNDARY.py) -/

/-- Case-insensitive character match against an uppercase pattern letter
(ASCII fold, as Python's `re.IGNORECASE` on this literal). -/
def ciMatchChar (c t : Char) : Bool := c == t || c.toUpper == t

/-- Match a literal pattern fragment, returning the rest of the input. -/
def matchLitCI : List Char → List Char → Option (List Char)
  | [], rest => some rest
  | _ :: _, [] => none
  | t :: ts, c :: rest => if ciMatchChar c t then matchLitCI ts rest else none

/-- `RX_CONTRATO_SOC` matched at the current position:
`contrato\s*de\s*sociedade\b` (the leading `\b` is checked by the caller).
`\s*` is zero-or-more whitespace; since the following pattern letters are
never whitespace, greedy skipping is equivalent. -/
def rxContratoHere (l : List Char) : Bool :=
  match matchLitCI "CONTRATO".toList l with
  | none => false
  | some r1 =>
    match matchLitCI "DE".toList (r1.dropWhile pyIsSpace) with
    | none => false
    | some r2 =>
      match matchLitCI "SOCIEDADE".toList (r2.dropWhile pyIsSpace) with
      | none => false
      | some r3 =>
        match r3 with
        | [] => true
        | c :: _ => !pyIsWordChar c

/-- Scan for `RX_CONTRATO_SOC` at every position; `prev` is the character
before the current position, for the leading `\b`. -/
def rxContratoSearchGo (prev : Option Char) : List Char → Bool
  | [] => false
  | c :: rest =>
    ((match prev with
      | none => true
      | some p => !pyIsWordChar p) && rxContratoHere (c :: rest)) ||
    rxContratoSearchGo (some c) rest

/-- `RX_CONTRATO_SOC.search(s) is not None` of ORG_SECUNDARY.py. -/
def rx_contrato_soc_search (l : List Char) : Bool := rxContratoSearchGo none l

/-- `is_company_doc_label_text` of ORG_SECUNDARY.py:
`up = " ".join(s.upper().split())`, exact label "CONTRATO DE SOCIEDADE",
else regex search. -/
def is_company_doc_label_text (s : List Char) : Bool :=
  let up := pyCollapseWs (pyUpperStr s)
  if up = "CONTRATO DE SOCIEDADE".toList then true
  else rx_contrato_soc_search up

/-- Modelled from the spec: the company-level label test as claim C5
words it — exact label "CONTRATO DE SOCIEDADE" or case-insensitive
*substring* containment of the phrase "contrato de sociedade".  Used only
to compare the claim's test with the source's regex-based test. -/
def listSubstr (needle : List Char) : List Char → Bool
  | [] => needle.isEmpty
  | c :: rest => needle.isPrefixOf (c :: rest) || listSubstr needle rest

def specCompanyDocLabelClaim (s : List Char) : Bool :=
  let up := pyUpperStr s
  decide (pyCollapseWs up = "CONTRATO DE SOCIEDADE".toList) ||
    listSubstr "CONTRATO DE SOCIEDADE".toList up

/-- One emitted relation record (texts, labels and offsets of head/tail). -/
structure Relation where
  head_text : List Char
  head_label : String
  tail_text : List Char
  tail_label : String
  relation : String
  head_start : Nat
  head_end : Nat
  tail_start : Nat
  tail_end : Nat
deriving DecidableEq, Repr

def mkRel (h t : Span) (r : String) : Relation :=
  ⟨h.text, h.label, t.text, t.label, r,
   h.start_char, h.end_char, t.start_char, t.end_char⟩

/-- The DOC branch of `build_relations`: HAS_DOCUMENT when a secondary
context exists and the company-label test passes, else SECTION_ITEM when
an ORG context exists, else nothing. -/
def docEmit (org sub : Option Span) (e : Span) : List Relation :=
  match sub with
  | some sb =>
    if is_company_doc_label_text e.text then [mkRel sb e "HAS_DOCUMENT"]
    else
      match org with
      | some o => [mkRel o e "SECTION_ITEM"]
      | none => []
  | none =>
    match org with
    | some o => [mkRel o e "SECTION_ITEM"]
    | none => []

/-- The scan loop of `build_relations`, threading the
`current_org`/`current_sub` context. -/
def buildRelationsGo (org sub : Option Span) : List Span → List Relation
  | [] => []
  | e :: rest =>
    if e.label = "ORG" then buildRelationsGo (some e) none rest
    else if e.label = "ORG_SECUNDARIA" then
      (match org with
       | some o => [mkRel o e "CONTAINS"]
       | none => []) ++ buildRelationsGo org (some e) rest
    else if e.label = "DOC" then
      docEmit org sub e ++ buildRelationsGo org sub rest
    else buildRelationsGo org sub rest

/-- The `(current_org, current_sub)` context after scanning a span list. -/
def relCtx (ctx : Option Span × Option Span) : List Span → Option Span × Option Span
  | [] => ctx
  | e :: rest =>
    if e.label = "ORG" then relCtx (some e, none) rest
    else if e.label = "ORG_SECUNDARIA" then relCtx (ctx.1, some e) rest
    else relCtx ctx rest

def spanLen (s : Span) : Nat := s.end_char - s.start_char

/-- spaCy `filter_spans` sort key `(length, -start)` descending (longer
first, ties by earlier start); written as a "comes before" test for the
stable sort.  Modelled from spaCy's `util.filter_spans` (external
dependency of ORG_SECUNDARY.py). -/
def filterKeyLe (a b : Span) : Bool :=
  decide (spanLen b < spanLen a ∨ (spanLen a = spanLen b ∧ a.start_char ≤ b.start_char))

def startLe (a b : Span) : Bool := decide (a.start_char ≤ b.start_char)

def coveredTok (kept : List Span) (t : Nat) : Bool :=
  kept.any fun s => decide (s.start_char ≤ t ∧ t < s.end_char)

/-- The greedy loop of spaCy `filter_spans`: keep a span when neither its
start token nor its last token is covered by an already-kept span. -/
def filterGreedy (kept : List Span) : List Span → List Span
  | [] => kept.reverse
  | s :: rest =>
    if !coveredTok kept s.start_char && !coveredTok kept (s.end_char - 1) then
      filterGreedy (s :: kept) rest
    else filterGreedy kept rest

/-- spaCy `util.filter_spans`: stable-sort by `(length, -start)`
descending, greedily keep non-covered spans, re-sort by start. -/
def filter_spans (l : List Span) : List Span :=
  sortLe startLe (filterGreedy [] (sortLe filterKeyLe l))

/-- `build_relations` of ORG_SECUNDARY.py:
`spacy.util.filter_spans(sorted(ents, key=(start, -end)))`, then the
context-threading scan. -/
def build_relations (ents : List Span) : List Relation :=
  buildRelationsGo none none (filter_spans (ents_in_order ents))

/-! ## Generic facts about the stable insertion sort -/

theorem insertLe_perm {α : Type} (le : α → α → Bool) (x : α) (l : List α) :
    List.Perm (insertLe le x l) (x :: l) := by
  induction l with
  | nil => exact List.Perm.refl _
  | cons y ys ih =>
    show List.Perm (if le x y then x :: y :: ys else y :: insertLe le x ys) (x :: y :: ys)
    split
    · exact List.Perm.refl _
    · exact (ih.cons y).trans (List.Perm.swap x y ys)

theorem sortLe_perm {α : Type} (le : α → α → Bool) (l : List α) :
    List.Perm (sortLe le l) l := by
  induction l with
  | nil => exact List.Perm.refl _
  | cons x xs ih => exact (insertLe_perm le x (sortLe le xs)).trans (ih.cons x)

theorem insertLe_pairwise {α : Type} (le : α → α → Bool)
    (htot : ∀ a b, le a b = true ∨ le b a = true)
    (htrans : ∀ a b c, le a b = true → le b c = true → le a c = true)
    (x : α) (l : List α) (hl : l.Pairwise (fun a b => le a b = true)) :
    (insertLe le x l).Pairwise (fun a b => le a b = true) := by
  induction l with
  | nil => simp [insertLe]
  | cons y ys ih =>
    rw [List.pairwise_cons] at hl
    show (if le x y then x :: y :: ys else y :: insertLe le x ys).Pairwise _
    split
    · rename_i hxy
      refine List.pairwise_cons.mpr ⟨?_, List.pairwise_cons.mpr hl⟩
      intro z hz
      rcases List.mem_cons.mp hz with rfl | hz'
      · exact hxy
      · exact htrans x y z hxy (hl.1 z hz')
    · rename_i hxy
      have hyx : le y x = true := (htot x y).resolve_left hxy
      refine List.pairwise_cons.mpr ⟨?_, ih hl.2⟩
      intro z hz
      rcases List.mem_cons.mp ((insertLe_perm le x ys).mem_iff.mp hz) with rfl | h
      · exact hyx
      · exact hl.1 z h

theorem sortLe_pairwise {α : Type} (le : α → α → Bool)
    (htot : ∀ a b, le a b = true ∨ le b a = true)
    (htrans : ∀ a b c, le a b = true → le b c = true → le a c = true)
    (l : List α) : (sortLe le l).Pairwise (fun a b => le a b = true) := by
  induction l with
  | nil => simp [sortLe]
  | cons x xs ih => exact insertLe_pairwise le htot htrans x (sortLe le xs) ih

/-! ## Non-overlap of the filtered span set (claim C9) -/

/-- The character/token ranges of two spans share no position. -/
def spansDisjoint (a b : Span) : Prop :=
  ∀ t : Nat, ¬(a.start_char ≤ t ∧ t < a.end_char ∧ b.start_char ≤ t ∧ t < b.end_char)

theorem spansDisjoint_symm {a b : Span} (h : spansDisjoint a b) : spansDisjoint b a := by
  intro t ht
  exact h t ⟨ht.2.2.1, ht.2.2.2, ht.1, ht.2.1⟩

theorem filterKeyLe_total (a b : Span) : filterKeyLe a b = true ∨ filterKeyLe b a = true := by
  simp only [filterKeyLe, decide_eq_true_eq]
  omega

theorem filterKeyLe_trans (a b c : Span) (h1 : filterKeyLe a b = true)
    (h2 : filterKeyLe b c = true) : filterKeyLe a c = true := by
  simp only [filterKeyLe, decide_eq_true_eq] at h1 h2 ⊢
  omega

theorem filterKeyLe_len {a b : Span} (h : filterKeyLe a b = true) :
    spanLen b ≤ spanLen a := by
  simp only [filterKeyLe, decide_eq_true_eq] at h
  omega

theorem coveredTok_false {kept : List Span} {t : Nat} (h : coveredTok kept t = false) :
    ∀ s ∈ kept, ¬(s.start_char ≤ t ∧ t < s.end_char) := by
  intro s hs hc
  have : coveredTok kept t = true := by
    simp only [coveredTok, List.any_eq_true]
    exact ⟨s, hs, by simpa using hc⟩
  rw [h] at this
  exact Bool.false_ne_true this

theorem filterGreedy_spec (rest : List Span) : ∀ kept : List Span,
    rest.Pairwise (fun a b => filterKeyLe a b = true) →
    (∀ s ∈ kept, ∀ x ∈ rest, spanLen x ≤ spanLen s) →
    kept.Pairwise spansDisjoint →
    (filterGreedy kept rest).Pairwise spansDisjoint ∧
      ∀ s ∈ filterGreedy kept rest, s ∈ kept ∨ s ∈ rest := by
  induction rest with
  | nil =>
    intro kept _ _ hk
    refine ⟨?_, fun s hs => Or.inl (by simpa [filterGreedy] using hs)⟩
    show (kept.reverse).Pairwise spansDisjoint
    rw [List.pairwise_reverse]
    exact hk.imp spansDisjoint_symm
  | cons s rest ih =>
    intro kept hsort hlen hk
    rw [List.pairwise_cons] at hsort
    simp only [filterGreedy]
    split
    · rename_i hcond
      rw [Bool.and_eq_true, Bool.not_eq_true', Bool.not_eq_true'] at hcond
      have hc1 := coveredTok_false hcond.1
      have hc2 := coveredTok_false hcond.2
      have hdisj : ∀ S ∈ kept, spansDisjoint s S := by
        intro S hS
        have hls : spanLen s ≤ spanLen S := hlen S hS s (List.mem_cons_self _ _)
        have h1 := hc1 S hS
        have h2 := hc2 S hS
        intro t ht
        simp only [spanLen] at hls
        omega
      have hres := ih (s :: kept) hsort.2
        (by
          intro s' hs' x hx
          rcases List.mem_cons.mp hs' with rfl | hs''
          · exact filterKeyLe_len (hsort.1 x hx)
          · exact hlen s' hs'' x (List.mem_cons_of_mem _ hx))
        (List.pairwise_cons.mpr ⟨hdisj, hk⟩)
      refine ⟨hres.1, ?_⟩
      intro z hz
      rcases hres.2 z hz with hz' | hz'
      · rcases List.mem_cons.mp hz' with rfl | hz''
        · exact Or.inr (List.mem_cons_self _ _)
        · exact Or.inl hz''
      · exact Or.inr (List.mem_cons_of_mem _ hz')
    · have hres := ih kept hsort.2
        (fun s' hs' x hx => hlen s' hs' x (List.mem_cons_of_mem _ hx)) hk
      refine ⟨hres.1, ?_⟩
      intro z hz
      rcases hres.2 z hz with hz' | hz'
      · exact Or.inl hz'
      · exact Or.inr (List.mem_cons_of_mem _ hz')

/-- Claim C9 counterexample: the claim's tie-break order ("prefer earlier
start, then longer extent") would keep the span starting at 0; spaCy's
`filter_spans` prefers the *longer* span, keeping the one starting at 2
and discarding the earlier-starting one. -/
theorem c9_counterexample :
    filter_spans [⟨0, 5, "DOC", "AAAAA".toList⟩, ⟨2, 9, "DOC", "BBBBBBB".toList⟩] =
      [⟨2, 9, "DOC", "BBBBBBB".toList⟩] ∧
    (⟨0, 5, "DOC", "AAAAA".toList⟩ : Span) ∉
      filter_spans [⟨0, 5, "DOC", "AAAAA".toList⟩, ⟨2, 9, "DOC", "BBBBBBB".toList⟩] ∧
    (0 : Nat) < 2 := by
  refine ⟨by decide, by decide, by decide⟩

/-- Claim C9 amended: the post-filter keeps a non-overlapping subset of
the spans, processing them longest-first with ties broken by earliest
start (so of two overlapping spans the longer wins, and of two
equally-long overlapping spans the earlier-starting one wins, as the two
concrete instances show). -/
theorem c9_amended (l : List Span) :
    (filter_spans l).Pairwise spansDisjoint ∧
    (∀ s ∈ filter_spans l, s ∈ l) ∧
    filter_spans [⟨0, 5, "DOC", "AAAAA".toList⟩, ⟨2, 9, "DOC", "BBBBBBB".toList⟩] =
      [⟨2, 9, "DOC", "BBBBBBB".toList⟩] ∧
    filter_spans [⟨0, 5, "DOC", "AAAAA".toList⟩, ⟨2, 7, "DOC", "BBBBB".toList⟩] =
      [⟨0, 5, "DOC", "AAAAA".toList⟩] := by
  have hsorted := sortLe_pairwise filterKeyLe filterKeyLe_total filterKeyLe_trans l
  have hg := filterGreedy_spec (sortLe filterKeyLe l) [] hsorted
    (by intro s hs; exact absurd hs (List.not_mem_nil s)) List.Pairwise.nil
  have hperm : List.Perm (filter_spans l) (filterGreedy [] (sortLe filterKeyLe l)) :=
    sortLe_perm startLe _
  refine ⟨?_, ?_, by decide, by decide⟩
  · exact (hperm.pairwise_iff fun h => spansDisjoint_symm h).mpr hg.1
  · intro s hs
    rcases hg.2 s (hperm.mem_iff.mp hs) with h | h
    · exact absurd h (List.not_mem_nil s)
    · exact (sortLe_perm filterKeyLe l).mem_iff.mp h

/-- Witness for `c9_amended`: membership instantiated at a concrete list. -/
theorem c9_amended_witness :
    (⟨3, 7, "DOC", "XXXX".toList⟩ : Span) ∈ [(⟨3, 7, "DOC", "XXXX".toList⟩ : Span)] := by
  have h := (c9_amended [⟨3, 7, "DOC", "XXXX".toList⟩]).2.1
    ⟨3, 7, "DOC", "XXXX".toList⟩ (by decide)
  exact h

/-! ## The phrase normalizer `_normalize_for_match` (body_refind.py) -/

/-- After a matched `[A-Za-z]`, try to match `-\s+([A-Za-z])`: a hyphen,
one or more whitespace characters, then a letter; returns the letter and
the remainder after it.  Since whitespace and `[A-Za-z]` are disjoint,
greedy munching of `\s+` is equivalent to the regex. -/
def subSoftTry : List Char → Option (Char × List Char)
  | [] => none
  | r0 :: r2 =>
    if r0 = '-' then
      if (r2.takeWhile pyIsSpace).isEmpty then none
      else
        match r2.dropWhile pyIsSpace with
        | b :: r4 => if asciiAlpha b then some (b, r4) else none
        | [] => none
    else none

/-- One pass of `re.sub(r"([A-Za-z])-\s+([A-Za-z])", r"\1\2", s)`:
scan left to right; on a match emit the two letters and continue after
the consumed text.  Fuel-based so the definition reduces in the kernel;
the wrapper supplies enough fuel. -/
def subSoftF : Nat → List Char → List Char
  | 0, l => l
  | _ + 1, [] => []
  | fuel + 1, a :: rest =>
    if asciiAlpha a then
      match subSoftTry rest with
      | some (b, r4) => a :: b :: subSoftF fuel r4
      | none => a :: subSoftF fuel rest
    else a :: subSoftF fuel rest

/-- The soft-hyphenation substitution of `_normalize_for_match`. -/
def sub_soft_hyphen (l : List Char) : List Char := subSoftF l.length l

/-- The lookbehind `(?<=\b[A-Z])`: the consumed character before the dot
is a single ASCII uppercase letter (word boundary before it). -/
def acrBehindOK : List Char → Bool
  | p :: pp =>
    asciiUpperAlpha p &&
      (match pp with
       | [] => true
       | q :: _ => !pyIsWordChar q)
  | [] => false

/-- The lookahead `(?=[A-Z]\b)`: the character after the dot is a single
ASCII uppercase letter (word boundary after it). -/
def acrAheadOK : List Char → Bool
  | n :: nn =>
    asciiUpperAlpha n &&
      (match nn with
       | [] => true
       | m :: _ => !pyIsWordChar m)
  | [] => false

/-- `re.sub(r"(?<=\b[A-Z])\.(?=[A-Z]\b)", "", s)`: a dot is removed when
the lookbehind and lookahead hold.  Lookarounds are evaluated on the
original string, so `revLeft` records all consumed characters. -/
def subAcrGo (revLeft : List Char) : List Char → List Char
  | [] => []
  | c :: rest =>
    if c = '.' then
      if acrBehindOK revLeft && acrAheadOK rest then subAcrGo ('.' :: revLeft) rest
      else '.' :: subAcrGo ('.' :: revLeft) rest
    else c :: subAcrGo (c :: revLeft) rest

/-- The acronym-dot substitution of `_normalize_for_match`. -/
def sub_acronym_dots (l : List Char) : List Char := subAcrGo [] l

/-- `_normalize_for_match` of body_refind.py: strip diacritics, join soft
hyphenations, drop acronym dots, collapse whitespace and strip, then
uppercase and trim edge punctuation. -/
def normalize_for_match (l : List Char) : List Char :=
  stripSet " ,.;:—–-".toList
    (pyUpperStr (pyCollapseWs (sub_acronym_dots (sub_soft_hyphen (strip_diacritics l)))))

/-! ## The relation-construction pass (claim C5) -/

theorem relCtx_append (ctx : Option Span × Option Span) (l1 l2 : List Span) :
    relCtx ctx (l1 ++ l2) = relCtx (relCtx ctx l1) l2 := by
  induction l1 generalizing ctx with
  | nil => rfl
  | cons e tl ih =>
    simp only [List.cons_append, relCtx]
    split
    · exact ih _
    · split
      · exact ih _
      · exact ih _

theorem buildRelationsGo_append (org sub : Option Span) (l1 l2 : List Span) :
    buildRelationsGo org sub (l1 ++ l2) =
      buildRelationsGo org sub l1 ++
        buildRelationsGo (relCtx (org, sub) l1).1 (relCtx (org, sub) l1).2 l2 := by
  induction l1 generalizing org sub with
  | nil => simp [relCtx, buildRelationsGo]
  | cons e tl ih =>
    simp only [List.cons_append, buildRelationsGo, relCtx]
    split
    · exact ih _ _
    · split
      · rw [List.append_eq, ih, List.append_assoc]
      · split
        · rw [List.append_eq, ih, List.append_assoc]
        · exact ih _ _

/-- Claim C5 counterexample: the claim describes the company-level test
as "exact label or *containing* the phrase"; the code's regex allows
**zero** whitespace between the words.  The DOC text
"CONTRATODE SOCIEDADE" does not contain the phrase (and is not the exact
label), yet the code's test accepts it, so `build_relations` emits
HAS_DOCUMENT where the claim predicts SECTION_ITEM. -/
theorem c5_counterexample :
    is_company_doc_label_text "CONTRATODE SOCIEDADE".toList = true ∧
    specCompanyDocLabelClaim "CONTRATODE SOCIEDADE".toList = false ∧
    build_relations
      [⟨0, 10, "ORG", "SECRETARIA".toList⟩,
       ⟨12, 20, "ORG_SECUNDARIA", "ACME LDA".toList⟩,
       ⟨22, 42, "DOC", "CONTRATODE SOCIEDADE".toList⟩] =
      [mkRel ⟨0, 10, "ORG", "SECRETARIA".toList⟩
         ⟨12, 20, "ORG_SECUNDARIA", "ACME LDA".toList⟩ "CONTAINS",
       mkRel ⟨12, 20, "ORG_SECUNDARIA", "ACME LDA".toList⟩
         ⟨22, 42, "DOC", "CONTRATODE SOCIEDADE".toList⟩ "HAS_DOCUMENT"] := by
  refine ⟨by decide, by decide, by decide⟩

/-- Claim C5 amended: scanning the filtered sorted spans, a DOC span
appended after a prefix `l` contributes exactly `docEmit` of the context
reached after `l`: HAS_DOCUMENT to the current ORG_SECUNDARIA when the
code's company-level test (`is_company_doc_label_text`: exact collapsed
label, or the word-bounded pattern "contrato", optional whitespace, "de",
optional whitespace, "sociedade") accepts the DOC text; otherwise
SECTION_ITEM to the current ORG when one exists; otherwise no relation at
all.  Every ORG span resets the context to `(itself, none)`. -/
theorem c5_amended (org sub : Option Span) (l : List Span) (d : Span)
    (hd : d.label = "DOC") :
    (buildRelationsGo org sub (l ++ [d]) =
      buildRelationsGo org sub l ++
        docEmit (relCtx (org, sub) l).1 (relCtx (org, sub) l).2 d) ∧
    (∀ o : Span, o.label = "ORG" → relCtx (org, sub) (l ++ [o]) = (some o, none)) ∧
    (docEmit none none d = []) ∧
    (∀ sb : Span, is_company_doc_label_text d.text = true →
      docEmit org (some sb) d = [mkRel sb d "HAS_DOCUMENT"]) ∧
    (∀ (o : Span) (sb : Option Span), is_company_doc_label_text d.text = false →
      docEmit (some o) sb d = [mkRel o d "SECTION_ITEM"]) := by
  refine ⟨?_, ?_, ?_, ?_, ?_⟩
  · rw [buildRelationsGo_append]
    congr 1
    have h1 : d.label ≠ "ORG" := by rw [hd]; decide
    have h2 : d.label ≠ "ORG_SECUNDARIA" := by rw [hd]; decide
    simp [buildRelationsGo, h1, h2, hd]
  · intro o ho
    rw [relCtx_append]
    have h1 : o.label = "ORG" := ho
    simp [relCtx, h1]
  · rfl
  · intro sb hc
    simp [docEmit, hc]
  · intro o sb hc
    cases sb with
    | none => simp [docEmit]
    | some sb' => simp [docEmit, hc]

/-- Witness for `c5_amended`: each hypothesis discharged at concrete
spans — a DOC with no preceding context yields no relation, an ORG resets
the context, and both company-test outcomes produce the stated relation. -/
theorem c5_amended_witness :
    (buildRelationsGo none none ([] ++ [⟨5, 9, "DOC", "Aviso".toList⟩]) =
      buildRelationsGo none none [] ++
        docEmit (relCtx (none, none) []).1 (relCtx (none, none) []).2
          ⟨5, 9, "DOC", "Aviso".toList⟩) ∧
    relCtx (none, none) ([] ++ [⟨0, 3, "ORG", "SEC".toList⟩]) =
      (some ⟨0, 3, "ORG", "SEC".toList⟩, none) ∧
    docEmit none none ⟨5, 9, "DOC", "Aviso".toList⟩ = [] ∧
    docEmit none (some ⟨0, 3, "ORG_SECUNDARIA", "ACME".toList⟩)
      ⟨5, 9, "DOC", "Contrato de sociedade".toList⟩ =
      [mkRel ⟨0, 3, "ORG_SECUNDARIA", "ACME".toList⟩
        ⟨5, 9, "DOC", "Contrato de sociedade".toList⟩ "HAS_DOCUMENT"] ∧
    docEmit (some ⟨0, 3, "ORG", "SEC".toList⟩) none ⟨5, 9, "DOC", "Aviso".toList⟩ =
      [mkRel ⟨0, 3, "ORG", "SEC".toList⟩ ⟨5, 9, "DOC", "Aviso".toList⟩ "SECTION_ITEM"] := by
  have h1 := c5_amended none none [] ⟨5, 9, "DOC", "Aviso".toList⟩ rfl
  have h2 := c5_amended none (some ⟨0, 3, "ORG_SECUNDARIA", "ACME".toList⟩) []
    ⟨5, 9, "DOC", "Contrato de sociedade".toList⟩ rfl
  exact ⟨h1.1, h1.2.1 ⟨0, 3, "ORG", "SEC".toList⟩ rfl, h1.2.2.1,
    h2.2.2.2.1 ⟨0, 3, "ORG_SECUNDARIA", "ACME".toList⟩ (by decide),
    h1.2.2.2.2 ⟨0, 3, "ORG", "SEC".toList⟩ none (by decide)⟩

/-! ## Monotone re-anchoring and slicing (body_refind.py, claims C1 & C2)

The spaCy `PhraseMatcher` is an external collaborator; its output is
abstracted as candidate maps from a normalized phrase to the list of
accepted `(start, end)` occurrences in full-text offsets, sorted as
`gather_candidates` sorts them.  Everything downstream of the candidate
maps is modelled from the source. -/

/-- One blueprint entry of `_build_blueprint`: the Sumário texts for one
organization, in Sumário order. -/
structure OrgEntry where
  org_text : List Char
  suborgs : List (List Char)
  docs : List (List Char)
deriving DecidableEq, Repr

/-- `for st, en in cands: if st >= cursor: choose and break` — the first
candidate at or past the cursor. -/
def pickFirst (cursor : Nat) : List (Nat × Nat) → Option (Nat × Nat)
  | [] => none
  | (st, en) :: rest => if cursor ≤ st then some (st, en) else pickFirst cursor rest

/-- The ORG assignment loop of `build_body_via_sumario_spacy`: walk the
blueprint in Sumário order with a single forward cursor, assigning each
ORG the first candidate occurrence starting at or past the cursor and
advancing the cursor to its end. -/
def assign_orgs (orgCands : List Char → List (Nat × Nat)) (cursor : Nat) :
    List OrgEntry → List (OrgEntry × Option (Nat × Nat))
  | [] => []
  | b :: rest =>
    match pickFirst cursor (orgCands (normalize_for_match b.org_text)) with
    | some (st, en) => (b, some (st, en)) :: assign_orgs orgCands en rest
    | none => (b, none) :: assign_orgs orgCands cursor rest

/-- `next_org_start`: the start of the next anchored organization after
the current one, or the full-text length. -/
def next_org_start (fullLen : Nat) : List (OrgEntry × Option (Nat × Nat)) → Nat
  | [] => fullLen
  | (_, some (st, _)) :: _ => st
  | (_, none) :: rest => next_org_start fullLen rest

/-- The DOC assignment loop for one organization section: hits are
restricted to the window `[org_end, section_end)` and consumed with a
forward cursor starting at `org_end`; documents with no qualifying hit
are skipped. -/
def assign_docs (docCands : List Char → List (Nat × Nat)) (orgEn sectionEnd : Nat)
    (cursor : Nat) : List (List Char) → List (Nat × Nat)
  | [] => []
  | d :: rest =>
    let hits := (docCands (normalize_for_match d)).filter
      fun h => decide (orgEn ≤ h.1 ∧ h.1 < sectionEnd)
    match pickFirst cursor hits with
    | some (st, en) => (st, en) :: assign_docs docCands orgEn sectionEnd en rest
    | none => assign_docs docCands orgEn sectionEnd cursor rest

/-- Modelled from the spec: the `BodyItem` dataclass lives in models.py,
which is absent from src/; its fields are those constructed by
segmenter.py and body_refind.py and documented in the spec's data model. -/
structure BodyItem where
  org_text : List Char
  org_start : Nat
  org_end : Nat
  section_id : Nat
  doc_title : List Char
  doc_start : Nat
  doc_end : Nat
  relation : String
  slice_text : List Char
  slice_start : Nat
  slice_end : Nat
  order_index : Nat
deriving DecidableEq, Repr

/-- One emitted `BodyItem` as `build_body_via_sumario_spacy` constructs
it: title from the document anchor, slice `[a, b)` stripped. -/
def mkBodyItem (fullText orgText : List Char) (orgSt orgEn : Nat) (d : Nat × Nat)
    (a b k : Nat) : BodyItem :=
  ⟨pyCollapseWs orgText, orgSt, orgEn, orgSt, pySlice fullText d.1 d.2, d.1, d.2,
   "SECTION_ITEM", pyStrip (pySlice fullText a b), a, b, k⟩

/-- Middle and last body items: each middle document slices to the next
document's start, the last document slices to the section end. -/
def slice_mid_last (fullText orgText : List Char) (orgSt orgEn sectionEnd : Nat) :
    List (Nat × Nat) → Nat → List BodyItem
  | [], _ => []
  | [d], k => [mkBodyItem fullText orgText orgSt orgEn d d.1 sectionEnd k]
  | d :: d' :: rest, k =>
    mkBodyItem fullText orgText orgSt orgEn d d.1 d'.1 k ::
      slice_mid_last fullText orgText orgSt orgEn sectionEnd (d' :: rest) (k + 1)

/-- The slicing routine of `build_body_via_sumario_spacy` for one
organization: first block `[org_start, d2.start)` (or
`[org_start, section_end)` when only one document), then middles, then
the last block to `section_end`. -/
def slice_items (fullText orgText : List Char) (orgSt orgEn sectionEnd : Nat)
    (das : List (Nat × Nat)) (k : Nat) : List BodyItem :=
  match das with
  | [] => []
  | [d] => [mkBodyItem fullText orgText orgSt orgEn d orgSt sectionEnd k]
  | d :: d1 :: ds =>
    mkBodyItem fullText orgText orgSt orgEn d orgSt d1.1 k ::
      slice_mid_last fullText orgText orgSt orgEn sectionEnd (d1 :: ds) (k + 1)

/-- The per-organization loop of `build_body_via_sumario_spacy`.
Sub-organization assignment is performed by the source but never read
when slicing (the source comments it is informational only), so it does
not appear here. -/
def build_loop (fullText : List Char) (docCands : List Char → List (Nat × Nat)) :
    List (OrgEntry × Option (Nat × Nat)) → Nat → List BodyItem
  | [], _ => []
  | (_, none) :: rest, k => build_loop fullText docCands rest k
  | (b, some (orgSt, orgEn)) :: rest, k =>
    let sectionEnd := next_org_start fullText.length rest
    let das := assign_docs docCands orgEn sectionEnd orgEn b.docs
    if das.isEmpty then build_loop fullText docCands rest k
    else
      slice_items fullText b.org_text orgSt orgEn sectionEnd das k ++
        build_loop fullText docCands rest (k + das.length)

/-- `build_body_via_sumario_spacy` downstream of candidate gathering:
assign ORG anchors monotonically from the cut point, then slice each
anchored section, numbering items from 1. -/
def build_body_via_sumario_spacy (fullText : List Char) (cut : Nat)
    (blueprint : List OrgEntry)
    (orgCands docCands : List Char → List (Nat × Nat)) : List BodyItem :=
  build_loop fullText docCands (assign_orgs orgCands cut blueprint) 1

theorem pickFirst_some {cursor : Nat} {l : List (Nat × Nat)} {pr : Nat × Nat}
    (h : pickFirst cursor l = some pr) : pr ∈ l ∧ cursor ≤ pr.1 := by
  induction l with
  | nil => exact absurd h (by simp [pickFirst])
  | cons hd tl ih =>
    obtain ⟨st, en⟩ := hd
    by_cases hc : cursor ≤ st
    · have : some (st, en) = some pr := by simpa [pickFirst, hc] using h
      obtain rfl := Option.some.inj this
      exact ⟨List.mem_cons_self _ _, hc⟩
    · have h' : pickFirst cursor tl = some pr := by simpa [pickFirst, hc] using h
      exact ⟨List.mem_cons_of_mem _ (ih h').1, (ih h').2⟩

theorem assign_orgs_starts (orgCands : List Char → List (Nat × Nat))
    (hwf : ∀ s pr, pr ∈ orgCands s → pr.1 < pr.2) :
    ∀ (bp : List OrgEntry) (cursor : Nat),
      (((assign_orgs orgCands cursor bp).filterMap
          fun x => x.2.map Prod.fst).Chain' (· < ·)) ∧
      ∀ v ∈ (assign_orgs orgCands cursor bp).filterMap fun x => x.2.map Prod.fst,
        cursor ≤ v := by
  intro bp
  induction bp with
  | nil => intro cursor; exact ⟨List.chain'_nil, by simp [assign_orgs]⟩
  | cons b rest ih =>
    intro cursor
    show ((assign_orgs orgCands cursor (b :: rest)).filterMap _).Chain' _ ∧ _
    rw [assign_orgs]
    rcases hp : pickFirst cursor (orgCands (normalize_for_match b.org_text)) with _ | ⟨st, en⟩
    · simpa using ih cursor
    · have hmem := pickFirst_some hp
      have hlt : st < en := hwf _ _ hmem.1
      have ihen := ih en
      simp only [List.filterMap_cons, Option.map_some]
      constructor
      · refine List.chain'_cons'.mpr ⟨?_, ihen.1⟩
        intro v hv
        have := ihen.2 v (List.mem_of_mem_head? hv)
        omega
      · intro v hv
        rcases List.mem_cons.mp hv with rfl | hv'
        · exact hmem.2
        · have := ihen.2 v hv'
          omega

/-- Claim C2 (the spec's monotonicity property): under the monotone
assignment pass, the assigned `org_start` offsets, in roster order, are
strictly increasing; each ORG takes the first candidate at or past the
cursor, which then advances to that candidate's end.  The hypothesis is
the well-formedness of the gathered candidates (every occurrence has
`start < end`, true of every `gather_candidates` output). -/
theorem c2_monotone_assignment (orgCands : List Char → List (Nat × Nat))
    (cut : Nat) (bp : List OrgEntry)
    (hwf : ∀ s pr, pr ∈ orgCands s → pr.1 < pr.2) :
    ((assign_orgs orgCands cut bp).filterMap
        fun x => x.2.map Prod.fst).Chain' (· < ·) :=
  (assign_orgs_starts orgCands hwf bp cut).1

/-- Witness for `c2_monotone_assignment` at a concrete candidate map and
two-entry roster. -/
theorem c2_monotone_assignment_witness :
    ((assign_orgs (fun _ => [(3, 7), (10, 14)]) 0
        [⟨"A".toList, [], []⟩, ⟨"A".toList, [], []⟩]).filterMap
      fun x => x.2.map Prod.fst).Chain' (· < ·) := by
  have h := c2_monotone_assignment (fun _ => [(3, 7), (10, 14)]) 0
    [⟨"A".toList, [], []⟩, ⟨"A".toList, [], []⟩]
    (by
      intro s pr hpr
      rcases List.mem_cons.mp hpr with rfl | hpr'
      · decide
      · rcases List.mem_cons.mp hpr' with rfl | hpr''
        · decide
        · exact absurd hpr'' (List.not_mem_nil pr))
  exact h

theorem assign_docs_mem (docCands : List Char → List (Nat × Nat)) (orgEn sectionEnd : Nat)
    (hwf : ∀ s pr, pr ∈ docCands s → pr.1 < pr.2) :
    ∀ (docs : List (List Char)) (cursor : Nat) (pr : Nat × Nat),
      pr ∈ assign_docs docCands orgEn sectionEnd cursor docs →
      orgEn ≤ pr.1 ∧ pr.1 < sectionEnd ∧ pr.1 < pr.2 ∧ cursor ≤ pr.1 := by
  intro docs
  induction docs with
  | nil => intro cursor pr h; exact absurd h (by simp [assign_docs])
  | cons d rest ih =>
    intro cursor pr h
    rw [assign_docs] at h
    rcases hp : pickFirst cursor ((docCands (normalize_for_match d)).filter
        fun h => decide (orgEn ≤ h.1 ∧ h.1 < sectionEnd)) with _ | ⟨st, en⟩
    · rw [hp] at h
      exact ih cursor pr h
    · rw [hp] at h
      have hps := pickFirst_some hp
      have hf := List.mem_filter.mp hps.1
      have hwin : orgEn ≤ st ∧ st < sectionEnd := by
        have := hf.2
        simpa using this
      have hlt : st < en := hwf _ _ hf.1
      rcases List.mem_cons.mp h with rfl | h'
      · exact ⟨hwin.1, hwin.2, hlt, hps.2⟩
      · have := ih en pr h'
        refine ⟨this.1, this.2.1, this.2.2.1, ?_⟩
        have := this.2.2.2
        have hcs := hps.2
        omega

theorem assign_docs_chain (docCands : List Char → List (Nat × Nat)) (orgEn sectionEnd : Nat)
    (hwf : ∀ s pr, pr ∈ docCands s → pr.1 < pr.2) :
    ∀ (docs : List (List Char)) (cursor : Nat),
      (assign_docs docCands orgEn sectionEnd cursor docs).Chain'
        (fun a b => a.2 ≤ b.1) := by
  intro docs
  induction docs with
  | nil => intro cursor; simp [assign_docs]
  | cons d rest ih =>
    intro cursor
    rw [assign_docs]
    rcases hp : pickFirst cursor ((docCands (normalize_for_match d)).filter
        fun h => decide (orgEn ≤ h.1 ∧ h.1 < sectionEnd)) with _ | ⟨st, en⟩
    · exact ih cursor
    · refine List.chain'_cons'.mpr ⟨?_, ih en⟩
      intro b hb
      have := assign_docs_mem docCands orgEn sectionEnd hwf rest en b
        (List.mem_of_mem_head? hb)
      exact this.2.2.2

theorem slice_mid_last_spec (fullText orgText : List Char)
    (orgSt orgEn sectionEnd : Nat) :
    ∀ (ds : List (Nat × Nat)) (d : Nat × Nat) (k : Nat),
      List.Chain' (fun a b => a.2 ≤ b.1) (d :: ds) →
      (∀ pr ∈ d :: ds, pr.1 < pr.2 ∧ pr.1 < sectionEnd) →
      (slice_mid_last fullText orgText orgSt orgEn sectionEnd (d :: ds) k).head?.map
          (fun it => it.slice_start) = some d.1 ∧
      (slice_mid_last fullText orgText orgSt orgEn sectionEnd (d :: ds) k).Chain'
          (fun a b => a.slice_end = b.slice_start) ∧
      (slice_mid_last fullText orgText orgSt orgEn sectionEnd (d :: ds) k).getLast?.map
          (fun it => it.slice_end) = some sectionEnd ∧
      ∀ it ∈ slice_mid_last fullText orgText orgSt orgEn sectionEnd (d :: ds) k,
        it.slice_start < it.slice_end := by
  intro ds
  induction ds with
  | nil =>
    intro d k _ hmem
    have hd := hmem d (List.mem_cons_self _ _)
    refine ⟨rfl, by simp [slice_mid_last], rfl, ?_⟩
    intro it hit
    rcases List.mem_cons.mp hit with rfl | hit'
    · show d.1 < sectionEnd
      exact hd.2
    · exact absurd hit' (List.not_mem_nil it)
  | cons d1 ds' ih =>
    intro d k hchain hmem
    have hchain' := List.chain'_cons.mp hchain
    have hd := hmem d (List.mem_cons_self _ _)
    have hd1 := hmem d1 (List.mem_cons_of_mem _ (List.mem_cons_self _ _))
    have hrec := ih d1 (k + 1) hchain'.2
      (fun pr hpr => hmem pr (List.mem_cons_of_mem _ hpr))
    refine ⟨rfl, ?_, ?_, ?_⟩
    · rw [slice_mid_last]
      refine List.chain'_cons'.mpr ⟨?_, hrec.2.1⟩
      intro b hb
      have hbo := Option.mem_def.mp hb
      have hh := hrec.1
      rw [hbo] at hh
      have hbs : b.slice_start = d1.1 := by simpa using hh
      show (mkBodyItem fullText orgText orgSt orgEn d d.1 d1.1 k).slice_end =
        b.slice_start
      rw [hbs]
      rfl
    · rw [slice_mid_last]
      rcases hmid : slice_mid_last fullText orgText orgSt orgEn sectionEnd
          (d1 :: ds') (k + 1) with _ | ⟨m, ms⟩
      · exfalso
        have hh := hrec.1
        rw [hmid] at hh
        exact absurd hh (by simp)
      · have hl := hrec.2.2.1
        rw [hmid] at hl
        rw [List.getLast?_cons_cons]
        exact hl
    · intro it hit
      rw [slice_mid_last] at hit
      rcases List.mem_cons.mp hit with rfl | hit'
      · show d.1 < d1.1
        have := hchain'.1
        omega
      · exact hrec.2.2.2 it hit'

/-- Claim C1 (the spec's partition property): for an organization with a
body anchor `[org_start, org_end)` and `n ≥ 1` assigned document
anchors, the emitted body items exactly tile `[org_start, section_end)`:
the first item starts at `org_start`, each item's `slice_end` equals the
next item's `slice_start`, the last item ends at `section_end`, and
every slice is non-empty (so there are no gaps and no overlaps).
Hypotheses: gathered candidates are well-formed (`start < end`) and the
anchor is non-degenerate (`org_start < org_end`), both true of every
`gather_candidates` output. -/
theorem c1_partition (fullText orgText : List Char)
    (docCands : List Char → List (Nat × Nat))
    (orgSt orgEn sectionEnd k : Nat) (docs : List (List Char))
    (hwf : ∀ s pr, pr ∈ docCands s → pr.1 < pr.2)
    (horg : orgSt < orgEn)
    (hne : assign_docs docCands orgEn sectionEnd orgEn docs ≠ []) :
    (slice_items fullText orgText orgSt orgEn sectionEnd
        (assign_docs docCands orgEn sectionEnd orgEn docs) k).head?.map
        (fun it => it.slice_start) = some orgSt ∧
    (slice_items fullText orgText orgSt orgEn sectionEnd
        (assign_docs docCands orgEn sectionEnd orgEn docs) k).Chain'
        (fun a b => a.slice_end = b.slice_start) ∧
    (slice_items fullText orgText orgSt orgEn sectionEnd
        (assign_docs docCands orgEn sectionEnd orgEn docs) k).getLast?.map
        (fun it => it.slice_end) = some sectionEnd ∧
    ∀ it ∈ slice_items fullText orgText orgSt orgEn sectionEnd
        (assign_docs docCands orgEn sectionEnd orgEn docs) k,
      it.slice_start < it.slice_end := by
  rcases hD : assign_docs docCands orgEn sectionEnd orgEn docs with _ | ⟨d, ds⟩
  · exact absurd hD hne
  have hmemD : ∀ pr ∈ d :: ds, pr.1 < pr.2 ∧ pr.1 < sectionEnd := by
    intro pr hpr
    have := assign_docs_mem docCands orgEn sectionEnd hwf docs orgEn pr (hD ▸ hpr)
    exact ⟨this.2.2.1, this.2.1⟩
  have hchainD : List.Chain' (fun a b => a.2 ≤ b.1) (d :: ds) :=
    hD ▸ assign_docs_chain docCands orgEn sectionEnd hwf docs orgEn
  have hdhead := assign_docs_mem docCands orgEn sectionEnd hwf docs orgEn d
    (hD ▸ List.mem_cons_self _ _)
  rcases ds with _ | ⟨d1, ds'⟩
  · refine ⟨rfl, by simp [slice_items], rfl, ?_⟩
    intro it hit
    rcases List.mem_cons.mp hit with rfl | hit'
    · show orgSt < sectionEnd
      have := hdhead.2.1
      omega
    · exact absurd hit' (List.not_mem_nil it)
  · have hchain' := List.chain'_cons.mp hchainD
    have hrec := slice_mid_last_spec fullText orgText orgSt orgEn sectionEnd
      ds' d1 (k + 1) hchain'.2 (fun pr hpr => hmemD pr (List.mem_cons_of_mem _ hpr))
    refine ⟨rfl, ?_, ?_, ?_⟩
    · rw [slice_items]
      refine List.chain'_cons'.mpr ⟨?_, hrec.2.1⟩
      intro b hb
      have hbo := Option.mem_def.mp hb
      have hh := hrec.1
      rw [hbo] at hh
      have hbs : b.slice_start = d1.1 := by simpa using hh
      show (mkBodyItem fullText orgText orgSt orgEn d orgSt d1.1 k).slice_end =
        b.slice_start
      rw [hbs]
      rfl
    · rw [slice_items]
      rcases hmid : slice_mid_last fullText orgText orgSt orgEn sectionEnd
          (d1 :: ds') (k + 1) with _ | ⟨m, ms⟩
      · exfalso
        have hh := hrec.1
        rw [hmid] at hh
        exact absurd hh (by simp)
      · have hl := hrec.2.2.1
        rw [hmid] at hl
        rw [List.getLast?_cons_cons]
        exact hl
    · intro it hit
      rw [slice_items] at hit
      rcases List.mem_cons.mp hit with rfl | hit'
      · show orgSt < d1.1
        have h1 := hdhead.1
        have h2 := hdhead.2.2.1
        have h3 := hchain'.1
        omega
      · exact hrec.2.2.2 it hit'

/-- Witness for `c1_partition` at a concrete candidate map: two document
anchors `(5,8)` and `(12,16)` under an organization anchored at `[0,4)`
with section end 30 tile `[0, 30)` as `[0,12)` and `[12,30)`. -/
theorem c1_partition_witness :
    (slice_items [] [] 0 4 30
        (assign_docs (fun _ => [(5, 8), (12, 16)]) 4 30 4
          ["D".toList, "D".toList]) 1).head?.map
        (fun it => it.slice_start) = some 0 ∧
    (slice_items [] [] 0 4 30
        (assign_docs (fun _ => [(5, 8), (12, 16)]) 4 30 4
          ["D".toList, "D".toList]) 1).Chain'
        (fun a b => a.slice_end = b.slice_start) ∧
    (slice_items [] [] 0 4 30
        (assign_docs (fun _ => [(5, 8), (12, 16)]) 4 30 4
          ["D".toList, "D".toList]) 1).getLast?.map
        (fun it => it.slice_end) = some 30 ∧
    ∀ it ∈ slice_items [] [] 0 4 30
        (assign_docs (fun _ => [(5, 8), (12, 16)]) 4 30 4
          ["D".toList, "D".toList]) 1,
      it.slice_start < it.slice_end := by
  have h := c1_partition [] [] (fun _ => [(5, 8), (12, 16)]) 0 4 30 1
    ["D".toList, "D".toList]
    (by
      intro s pr hpr
      rcases List.mem_cons.mp hpr with rfl | hpr'
      · decide
      · rcases List.mem_cons.mp hpr' with rfl | hpr''
        · decide
        · exact absurd hpr'' (List.not_mem_nil pr))
    (by decide)
    (by decide)
  exact h

/-! ## The buffer normalizer `_build_normalized_body_with_map`
(body_refind.py)

The loop is embedded as a structural scan threading the loop state:
`prev` is the original character before the current position (for the
soft-hyphen test `text[i-1].isalpha()`), `lastOut` the last appended
output unit (`out_chars[-1]`, possibly an empty or two-character string),
`lws` the `last_was_space` flag, and `pos` the current index.  Python's
`i = j` jump over whitespace after a joined hyphen is expressed by the
`joining` flag: while it is set, whitespace characters are consumed
silently; the guard guarantees the run ends at a letter, which is then
processed normally.  Each step emits at most one `(unit, index)` pair;
`out_chars` is the concatenation of the units. -/

def prevAlpha : Option Char → Bool
  | some p => pyIsAlpha p
  | none => false

def headAlpha : List Char → Bool
  | b :: _ => pyIsAlpha b
  | [] => false

/-- A nonempty all-alphabetic unit (Python `prev.isalpha()`). -/
def unitIsAlpha (u : List Char) : Bool := !u.isEmpty && u.all pyIsAlpha

/-- `prev.isalpha() and prev == prev.upper()` on the last output unit. -/
def lastOutAlphaUpper : Option (List Char) → Bool
  | some u => unitIsAlpha u && decide (pyUpperStr u = u)
  | none => false

/-- `nxt = text[i+1].upper(); nxt.isalpha() and nxt == nxt.upper()`. -/
def nxtUpperAlpha : List Char → Bool
  | n :: _ => unitIsAlpha (pyUpperChar n) && decide (pyUpperStr (pyUpperChar n) = pyUpperChar n)
  | [] => false

def nbGo (prev : Option Char) (lastOut : Option (List Char)) (lws joining : Bool)
    (pos : Nat) : List Char → List (List Char × Nat)
  | [] => []
  | c :: rest =>
    if joining && pyIsSpace c then
      nbGo (some c) lastOut lws true (pos + 1) rest
    else if c = '-' && prevAlpha prev && headAlpha (rest.dropWhile pyIsSpace) then
      nbGo (some c) lastOut lws true (pos + 1) rest
    else if pyIsSpace c then
      if lws then nbGo (some c) lastOut true false (pos + 1) rest
      else ([' '], pos) :: nbGo (some c) (some [' ']) true false (pos + 1) rest
    else
      if chNormUnit c = ['.'] ∧ lastOutAlphaUpper lastOut = true ∧
          nxtUpperAlpha rest = true then
        nbGo (some c) lastOut false false (pos + 1) rest
      else (chNormUnit c, pos) :: nbGo (some c) (some (chNormUnit c)) false false (pos + 1) rest

/-- `_build_normalized_body_with_map` of body_refind.py: the normalized
string and the output-character to original-index map. -/
def build_normalized_body_with_map (text : List Char) : List Char × List Nat :=
  let us := nbGo none none false false 0 text
  ((us.map Prod.fst).flatten, us.map Prod.snd)

/-! ## The ALL-CAPS gate and candidate acceptance (claim C4) -/

/-- `\s*\n` after a newline: skip whitespace until another newline. -/
def blankAfterNewline : List Char → Bool
  | [] => false
  | c :: rest =>
    if c = '\n' then true
    else if pyIsSpace c then blankAfterNewline rest
    else false

/-- `re.search(r"\n\s*\n", s) is not None`. -/
def hasBlankLine : List Char → Bool
  | [] => false
  | c :: rest =>
    if c = '\n' then blankAfterNewline rest || hasBlankLine rest
    else hasBlankLine rest

/-- The character class `[A-Za-zÀ-ÿ]` of `_caps_token_rx`.  It covers
U+00C0..U+00FF (including the non-letters '×' and '÷') but *not* letters
beyond Latin-1 such as 'ā'. -/
def capsClassChar (c : Char) : Bool :=
  asciiAlpha c ||
    "ÀÁÂÃÄÅÆÇÈÉÊËÌÍÎÏÐÑÒÓÔÕÖ×ØÙÚÛÜÝÞßàáâãäåæçèéêëìíîïðñòóôõö÷øùúûüýþÿ".toList.contains c

/-- `_is_all_caps_token` of body_refind.py: some alphabetic character,
and every alphabetic character equal to its own uppercase. -/
def is_all_caps_token (t : List Char) : Bool :=
  (t.all fun c => !pyIsAlpha c || decide (pyUpperChar c = [c])) && t.any pyIsAlpha

/-- `_passes_all_caps_gate` of body_refind.py: no blank line inside, and
every whitespace-delimited token matched by `_caps_token_rx` is all-caps. -/
def passes_all_caps_gate (s : List Char) : Bool :=
  !hasBlankLine s &&
    (wordsBy pyIsSpace s).all fun t => !t.any capsClassChar || is_all_caps_token t

/-- `_word_boundary_ok` of body_refind.py. -/
def word_boundary_ok (norm : List Char) (a b : Nat) : Bool :=
  (decide (a = 0) || !pyIsAlnum (norm.getD (a - 1) ' ')) &&
    (decide (b = norm.length) || !pyIsAlnum (norm.getD b ' '))

/-- The per-match acceptance filter of `gather_candidates`
(body_refind.py): word-boundary guard on the normalized body, offset
mapping back to full-text coordinates, and the ALL-CAPS gate on the
original text for ORG/ORG_SECUNDARIA.  The spaCy matcher's raw matches
`ms` are abstracted as normalized-buffer spans; the bounds guard makes
the offset lookups total (Python would raise on an out-of-range index). -/
def gather_accept (label : String) (fullText : List Char) (cut : Nat)
    (normBody : List Char) (idxMap : List Nat) (ms : List (Nat × Nat)) :
    List (Nat × Nat) :=
  ms.filterMap fun m =>
    if 0 < m.2 ∧ m.1 < idxMap.length ∧ m.2 ≤ idxMap.length ∧
        word_boundary_ok normBody m.1 m.2 = true then
      if label = "ORG" ∨ label = "ORG_SECUNDARIA" then
        if passes_all_caps_gate (pySlice fullText
            (cut + idxMap.getD m.1 0) (cut + idxMap.getD (m.2 - 1) 0 + 1)) then
          some (cut + idxMap.getD m.1 0, cut + idxMap.getD (m.2 - 1) 0 + 1)
        else none
      else some (cut + idxMap.getD m.1 0, cut + idxMap.getD (m.2 - 1) 0 + 1)
    else none

/-- Claim C4 counterexample: the trigger regex `[A-Za-zÀ-ÿ]` misses
letters beyond Latin-1.  The span "ā" consists of one token containing a
letter that is not uppercase ('ā'.upper() = 'Ā' ≠ 'ā'), yet the gate
passes it and the candidate is accepted as an ORG match. -/
theorem c4_counterexample :
    (∃ t ∈ wordsBy pyIsSpace "ā".toList,
      ∃ c ∈ t, pyIsAlpha c = true ∧ pyUpperChar c ≠ [c]) ∧
    passes_all_caps_gate "ā".toList = true ∧
    gather_accept "ORG" "ā".toList 0 "A".toList [0] [(0, 1)] = [(0, 1)] := by
  refine ⟨by decide, by decide, by decide⟩

/-- Claim C4 amended: a candidate is rejected when its original span
crosses a blank line, or when some whitespace-delimited token contains a
character of the class `[A-Za-zÀ-ÿ]` (the regex trigger — letters beyond
Latin-1 do not trigger the check) and also some letter that is not its
own uppercase; and every candidate accepted by the gather filter for
ORG/ORG_SECUNDARIA passes the gate on its original span text. -/
theorem c4_amended :
    (∀ s : List Char, hasBlankLine s = true → passes_all_caps_gate s = false) ∧
    (∀ (s t : List Char), t ∈ wordsBy pyIsSpace s →
      (∃ c ∈ t, capsClassChar c = true) →
      (∃ c ∈ t, pyIsAlpha c = true ∧ pyUpperChar c ≠ [c]) →
      passes_all_caps_gate s = false) ∧
    (∀ (lab : String) (ft : List Char) (cut : Nat) (nb : List Char)
        (im : List Nat) (ms : List (Nat × Nat)) (pr : Nat × Nat),
      pr ∈ gather_accept lab ft cut nb im ms →
      (lab = "ORG" ∨ lab = "ORG_SECUNDARIA") →
      passes_all_caps_gate (pySlice ft pr.1 pr.2) = true) := by
  refine ⟨?_, ?_, ?_⟩
  · intro s hb
    simp [passes_all_caps_gate, hb]
  · intro s t ht htrig hmix
    obtain ⟨c0, hc0, htrig0⟩ := htrig
    obtain ⟨c1, hc1, hmix1⟩ := hmix
    have hcaps : is_all_caps_token t = false := by
      rw [is_all_caps_token]
      have : t.all (fun c => !pyIsAlpha c || decide (pyUpperChar c = [c])) = false := by
        rw [List.all_eq_false]
        refine ⟨c1, hc1, ?_⟩
        simp [hmix1.1, hmix1.2]
      simp [this]
    have hany : t.any capsClassChar = true := List.any_eq_true.mpr ⟨c0, hc0, htrig0⟩
    have hall : ((wordsBy pyIsSpace s).all
        fun t => !t.any capsClassChar || is_all_caps_token t) = false := by
      rw [List.all_eq_false]
      refine ⟨t, ht, ?_⟩
      simp [hany, hcaps]
    simp [passes_all_caps_gate, hall]
  · intro lab ft cut nb im ms pr hpr hlab
    obtain ⟨m, _, hm⟩ := List.mem_filterMap.mp hpr
    split_ifs at hm with h1 h2
    obtain rfl := Option.some.inj hm
    exact h2

/-- Witness for `c4_amended`: a blank-line span is rejected, a mixed-case
Latin token is rejected, and a concrete accepted ORG candidate passes the
gate on its span. -/
theorem c4_amended_witness :
    passes_all_caps_gate "A\n \nB".toList = false ∧
    passes_all_caps_gate "Abc".toList = false ∧
    passes_all_caps_gate (pySlice "AB".toList 0 2) = true := by
  refine ⟨?_, ?_, ?_⟩
  · exact c4_amended.1 "A\n \nB".toList (by decide)
  · exact c4_amended.2.1 "Abc".toList "Abc".toList (by decide)
      ⟨'A', by decide, by decide⟩ ⟨'b', by decide, by decide⟩
  · exact c4_amended.2.2 "ORG" "AB".toList 0 "AB".toList [0, 1] [(0, 2)] (0, 2)
      (by decide) (Or.inl rfl)

/-! ## Soft-hyphen joining in the two normalizers (claim C8) -/

theorem mem_of_contains {l : List Char} {c : Char} (h : l.contains c = true) : c ∈ l := by
  simpa using h

theorem pyIsAlpha_not_space {c : Char} (h : pyIsAlpha c = true) : pyIsSpace c = false := by
  rw [pyIsAlpha, asciiAlpha] at h
  simp only [Bool.or_eq_true, beq_iff_eq] at h
  rcases h with ((((h | h) | h) | h) | rfl) | rfl
  · exact (show ∀ x ∈ "ABCDEFGHIJKLMNOPQRSTUVWXYZ".toList, pyIsSpace x = false
      by decide) c (mem_of_contains h)
  · exact (show ∀ x ∈ "abcdefghijklmnopqrstuvwxyz".toList, pyIsSpace x = false
      by decide) c (mem_of_contains h)
  · exact (show ∀ x ∈ "ÀÁÂÃÄÅÆÇÈÉÊËÌÍÎÏÐÑÒÓÔÕÖØÙÚÛÜÝÞ".toList, pyIsSpace x = false
      by decide) c (mem_of_contains h)
  · exact (show ∀ x ∈ "ßàáâãäåæçèéêëìíîïðñòóôõöøùúûüýþÿ".toList, pyIsSpace x = false
      by decide) c (mem_of_contains h)
  · decide
  · decide

theorem takeWhile_ws_append {w : List Char} (y : Char) (rest : List Char)
    (hw : ∀ c ∈ w, pyIsSpace c = true) (hy : pyIsSpace y = false) :
    (w ++ y :: rest).takeWhile pyIsSpace = w ∧
      (w ++ y :: rest).dropWhile pyIsSpace = y :: rest := by
  induction w with
  | nil => simp [List.takeWhile, List.dropWhile, hy]
  | cons c w' ih =>
    have hc : pyIsSpace c = true := hw c (List.mem_cons_self _ _)
    have := ih fun c hcm => hw c (List.mem_cons_of_mem _ hcm)
    simp [List.takeWhile, List.dropWhile, hc, this.1, this.2]

/-- The original character preceding the position after a consumed run. -/
def prevAfter (prev : Option Char) (w : List Char) : Option Char :=
  (w.getLast?).elim prev some

theorem prevAfter_cons (prev : Option Char) (c : Char) (w : List Char) :
    prevAfter prev (c :: w) = prevAfter (some c) w := by
  cases w with
  | nil => rfl
  | cons c' w' =>
    rw [prevAfter, prevAfter, List.getLast?_cons_cons]
    have hs : ((c' :: w').getLast?).isSome := by
      rw [List.getLast?_isSome]
      exact List.cons_ne_nil _ _
    obtain ⟨z, hz⟩ := Option.isSome_iff_exists.mp hs
    rw [hz]
    rfl

theorem nbGo_skip_run (w : List Char) : ∀ (prev : Option Char)
    (lo : Option (List Char)) (lws : Bool) (pos : Nat) (y : Char) (rest : List Char),
    (∀ c ∈ w, pyIsSpace c = true) →
    nbGo prev lo lws true pos (w ++ y :: rest) =
      nbGo (prevAfter prev w) lo lws true (pos + w.length) (y :: rest) := by
  induction w with
  | nil => intro prev lo lws pos y rest _; rfl
  | cons c w' ih =>
    intro prev lo lws pos y rest hw
    have hc : pyIsSpace c = true := hw c (List.mem_cons_self _ _)
    show nbGo prev lo lws true pos (c :: (w' ++ y :: rest)) = _
    rw [nbGo]
    rw [if_pos (by simp [hc])]
    rw [ih (some c) lo lws (pos + 1) y rest fun d hd => hw d (List.mem_cons_of_mem _ hd)]
    rw [prevAfter_cons]
    congr 1
    simp only [List.length_cons]
    omega

theorem nbGo_flag_off (prev : Option Char) (lo : Option (List Char)) (lws : Bool)
    (pos : Nat) (c : Char) (rest : List Char) (hc : pyIsSpace c = false) :
    nbGo prev lo lws true pos (c :: rest) = nbGo prev lo lws false pos (c :: rest) := by
  have h1 : ¬((true && pyIsSpace c) = true) := by simp [hc]
  have h2 : ¬((false && pyIsSpace c) = true) := by simp
  rw [nbGo, nbGo, if_neg h1, if_neg h2]

/-- Claim C8 counterexample: with **no** whitespace after the hyphen, the
phrase-normalizer's regex `([A-Za-z])-\s+([A-Za-z])` does not fire —
"A-B" keeps its hyphen — while the buffer-normalizer does join it. -/
theorem c8_counterexample :
    normalize_for_match "A-B".toList = "A-B".toList ∧
    normalize_for_match "A-B".toList ≠ "AB".toList ∧
    (build_normalized_body_with_map "A-B".toList).1 = "AB".toList := by
  refine ⟨by decide, by decide, by decide⟩

/-- Claim C8 amended: the buffer-normalizer deletes a hyphen between a
letter and a letter separated by *zero or more* whitespace characters
(together with that whitespace); the phrase-normalizer's substitution
requires *at least one* whitespace character after the hyphen, and with
none it leaves the text unchanged at that position. -/
theorem c8_amended :
    (∀ (p : Char) (lo : Option (List Char)) (lws : Bool) (pos : Nat) (y : Char)
        (rest : List Char), pyIsAlpha p = true → pyIsAlpha y = true →
      nbGo (some p) lo lws false pos ('-' :: y :: rest) =
        nbGo (some '-') lo lws false (pos + 1) (y :: rest)) ∧
    (∀ (p : Char) (lo : Option (List Char)) (lws : Bool) (pos : Nat) (w : List Char)
        (y : Char) (rest : List Char), pyIsAlpha p = true → pyIsAlpha y = true →
      (∀ c ∈ w, pyIsSpace c = true) →
      nbGo (some p) lo lws false pos ('-' :: (w ++ y :: rest)) =
        nbGo (prevAfter (some '-') w) lo lws false (pos + 1 + w.length) (y :: rest)) ∧
    (∀ (fuel : Nat) (a b : Char) (rest : List Char),
      asciiAlpha a = true → asciiAlpha b = true →
      subSoftF (fuel + 1) (a :: '-' :: b :: rest) = a :: subSoftF fuel ('-' :: b :: rest)) ∧
    (∀ (fuel : Nat) (a b : Char) (w : List Char) (rest : List Char),
      asciiAlpha a = true → asciiAlpha b = true → w ≠ [] →
      (∀ c ∈ w, pyIsSpace c = true) →
      subSoftF (fuel + 1) (a :: '-' :: (w ++ b :: rest)) = a :: b :: subSoftF fuel rest) := by
  have hws : ∀ y : Char, pyIsAlpha y = true → pyIsSpace y = false :=
    fun y hy => pyIsAlpha_not_space hy
  have hjoin : ∀ (p : Char) (lo : Option (List Char)) (lws : Bool) (pos : Nat)
      (w : List Char) (y : Char) (rest : List Char), pyIsAlpha p = true →
      pyIsAlpha y = true → (∀ c ∈ w, pyIsSpace c = true) →
      nbGo (some p) lo lws false pos ('-' :: (w ++ y :: rest)) =
        nbGo (prevAfter (some '-') w) lo lws false (pos + 1 + w.length) (y :: rest) := by
    intro p lo lws pos w y rest hp hy hw
    have hdw := (takeWhile_ws_append y rest hw (hws y hy)).2
    rw [nbGo]
    rw [if_neg (by simp)]
    rw [if_pos (by simp [prevAlpha, hp, hdw, headAlpha, hy])]
    rw [nbGo_skip_run w (some '-') lo lws (pos + 1) y rest hw]
    rw [nbGo_flag_off _ _ _ _ _ _ (hws y hy)]
  refine ⟨?_, hjoin, ?_, ?_⟩
  · intro p lo lws pos y rest hp hy
    have h := hjoin p lo lws pos [] y rest hp hy (by intro c hc; exact absurd hc (List.not_mem_nil c))
    simpa [prevAfter] using h
  · intro fuel a b rest ha hb
    have hbw : pyIsSpace b = false := hws b (by simp [pyIsAlpha, hb])
    rw [subSoftF, if_pos ha]
    have htry : subSoftTry ('-' :: b :: rest) = none := by
      rw [subSoftTry, if_pos rfl]
      have ht : ((b :: rest).takeWhile pyIsSpace).isEmpty = true := by
        rw [List.takeWhile_cons, if_neg (by simp [hbw])]
        rfl
      rw [if_pos ht]
    rw [htry]
  · intro fuel a b w rest ha hb hwne hw
    have hbw : pyIsSpace b = false := hws b (by simp [pyIsAlpha, hb])
    have htw := takeWhile_ws_append b rest hw hbw
    rw [subSoftF, if_pos ha]
    have htry : subSoftTry ('-' :: (w ++ b :: rest)) = some (b, rest) := by
      rw [subSoftTry, if_pos rfl]
      have hne : ((w ++ b :: rest).takeWhile pyIsSpace).isEmpty = false := by
        rw [htw.1]
        cases w with
        | nil => exact absurd rfl hwne
        | cons _ _ => rfl
      rw [if_neg (by simp [hne]), htw.2]
      simp [hb]
    rw [htry]

/-- Witness for `c8_amended`: the four statements instantiated at
concrete letters, whitespace runs and suffixes. -/
theorem c8_amended_witness :
    nbGo (some 'A') none false false 0 ('-' :: 'B' :: []) =
      nbGo (some '-') none false false 1 ('B' :: []) ∧
    nbGo (some 'A') none false false 0 ('-' :: ([' '] ++ 'B' :: [])) =
      nbGo (prevAfter (some '-') [' ']) none false false 2 ('B' :: []) ∧
    subSoftF 3 ('A' :: '-' :: 'B' :: []) = 'A' :: subSoftF 2 ('-' :: 'B' :: []) ∧
    subSoftF 4 ('A' :: '-' :: ([' '] ++ 'B' :: [])) = 'A' :: 'B' :: subSoftF 3 [] := by
  refine ⟨c8_amended.1 'A' none false 0 'B' [] (by decide) (by decide),
    c8_amended.2.1 'A' none false 0 [' '] 'B' [] (by decide) (by decide) (by decide),
    c8_amended.2.2.1 2 'A' 'B' [] (by decide) (by decide),
    c8_amended.2.2.2 3 'A' 'B' [' '] [] (by decide) (by decide) (by decide) (by decide)⟩

/-! ## Invariants of the offset map (claim C10) -/

theorem nbGo_pos_bounds : ∀ (l : List Char) (prev : Option Char)
    (lo : Option (List Char)) (lws joining : Bool) (pos : Nat) (pr : List Char × Nat),
    pr ∈ nbGo prev lo lws joining pos l → pos ≤ pr.2 ∧ pr.2 < pos + l.length := by
  intro l
  induction l with
  | nil => intro prev lo lws joining pos pr h; exact absurd h (by simp [nbGo])
  | cons c rest ih =>
    intro prev lo lws joining pos pr h
    rw [nbGo] at h
    split_ifs at h with h1 h2 h3 h4 h5
    · have := ih _ _ _ _ _ _ h
      simp only [List.length_cons]
      omega
    · have := ih _ _ _ _ _ _ h
      simp only [List.length_cons]
      omega
    · have := ih _ _ _ _ _ _ h
      simp only [List.length_cons]
      omega
    · rcases List.mem_cons.mp h with rfl | h'
      · simp only [List.length_cons]
        omega
      · have := ih _ _ _ _ _ _ h'
        simp only [List.length_cons]
        omega
    · have := ih _ _ _ _ _ _ h
      simp only [List.length_cons]
      omega
    · rcases List.mem_cons.mp h with rfl | h'
      · simp only [List.length_cons]
        omega
      · have := ih _ _ _ _ _ _ h'
        simp only [List.length_cons]
        omega

theorem nbGo_pos_chain : ∀ (l : List Char) (prev : Option Char)
    (lo : Option (List Char)) (lws joining : Bool) (pos : Nat),
    ((nbGo prev lo lws joining pos l).map Prod.snd).Chain' (· < ·) := by
  intro l
  induction l with
  | nil => intro prev lo lws joining pos; simp [nbGo]
  | cons c rest ih =>
    intro prev lo lws joining pos
    rw [nbGo]
    split_ifs with h1 h2 h3 h4 h5
    · exact ih _ _ _ _ _
    · exact ih _ _ _ _ _
    · exact ih _ _ _ _ _
    · rw [List.map_cons]
      refine List.chain'_cons'.mpr ⟨?_, ih _ _ _ _ _⟩
      intro v hv
      have hvm : v ∈ (nbGo (some c) (some [' ']) true false (pos + 1) rest).map Prod.snd :=
        List.mem_of_mem_head? hv
      obtain ⟨pr, hpr, rfl⟩ := List.mem_map.mp hvm
      have := nbGo_pos_bounds rest _ _ _ _ _ pr hpr
      omega
    · exact ih _ _ _ _ _
    · rw [List.map_cons]
      refine List.chain'_cons'.mpr ⟨?_, ih _ _ _ _ _⟩
      intro v hv
      have hvm : v ∈ (nbGo (some c) (some (chNormUnit c)) false false (pos + 1) rest).map
          Prod.snd := List.mem_of_mem_head? hv
      obtain ⟨pr, hpr, rfl⟩ := List.mem_map.mp hvm
      have := nbGo_pos_bounds rest _ _ _ _ _ pr hpr
      omega

theorem nbGo_unit_len : ∀ (l : List Char) (prev : Option Char)
    (lo : Option (List Char)) (lws joining : Bool) (pos : Nat),
    (∀ c ∈ l, pyIsSpace c = false → (chNormUnit c).length = 1) →
    ∀ u ∈ (nbGo prev lo lws joining pos l).map Prod.fst, u.length = 1 := by
  intro l
  induction l with
  | nil => intro prev lo lws joining pos _ u h; exact absurd h (by simp [nbGo])
  | cons c rest ih =>
    intro prev lo lws joining pos hl u h
    have hrest : ∀ c ∈ rest, pyIsSpace c = false → (chNormUnit c).length = 1 :=
      fun d hd => hl d (List.mem_cons_of_mem _ hd)
    rw [nbGo] at h
    split_ifs at h with h1 h2 h3 h4 h5
    · exact ih _ _ _ _ _ hrest u h
    · exact ih _ _ _ _ _ hrest u h
    · exact ih _ _ _ _ _ hrest u h
    · rw [List.map_cons] at h
      rcases List.mem_cons.mp h with rfl | h'
      · rfl
      · exact ih _ _ _ _ _ hrest u h'
    · exact ih _ _ _ _ _ hrest u h
    · rw [List.map_cons] at h
      rcases List.mem_cons.mp h with rfl | h'
      · have hcs : pyIsSpace c = false := by simpa using h3
        exact hl c (List.mem_cons_self _ _) hcs
      · exact ih _ _ _ _ _ hrest u h'

theorem flatten_len_of_units {α : Type} : ∀ us : List (List α),
    (∀ u ∈ us, u.length = 1) → us.flatten.length = us.length := by
  intro us
  induction us with
  | nil => intro _; rfl
  | cons u us' ih =>
    intro h
    rw [List.flatten_cons, List.length_append, List.length_cons,
      h u (List.mem_cons_self _ _), ih fun v hv => h v (List.mem_cons_of_mem _ hv)]
    omega

/-- Claim C10 counterexample: 'ß' normalizes to the two-character unit
"SS" with a single map entry, so the normalized string and the index map
have different lengths; a combining mark produces an empty unit with a
map entry, making the map *longer* than the string. -/
theorem c10_counterexample :
    (build_normalized_body_with_map "ß".toList).1.length = 2 ∧
    (build_normalized_body_with_map "ß".toList).2.length = 1 ∧
    (build_normalized_body_with_map "̂".toList).1.length = 0 ∧
    (build_normalized_body_with_map "̂".toList).2.length = 1 := by
  refine ⟨by decide, by decide, by decide, by decide⟩

/-- Claim C10 amended: the index map's entries are always strictly
increasing valid character indices into the input; the normalized string
and the map have equal length *provided* every non-whitespace character
of the input normalizes to exactly one output character (which excludes
'ß', whose normal form is "SS", and combining marks, whose normal form is
empty). -/
theorem c10_amended (text : List Char)
    (h1 : ∀ c ∈ text, pyIsSpace c = false → (chNormUnit c).length = 1) :
    (build_normalized_body_with_map text).1.length =
      (build_normalized_body_with_map text).2.length ∧
    (build_normalized_body_with_map text).2.Chain' (· < ·) ∧
    ∀ i ∈ (build_normalized_body_with_map text).2, i < text.length := by
  refine ⟨?_, ?_, ?_⟩
  · show ((nbGo none none false false 0 text).map Prod.fst).flatten.length =
      ((nbGo none none false false 0 text).map Prod.snd).length
    rw [flatten_len_of_units _ (nbGo_unit_len text none none false false 0 h1)]
    simp
  · exact nbGo_pos_chain text none none false false 0
  · intro i hi
    obtain ⟨pr, hpr, rfl⟩ := List.mem_map.mp hi
    have := nbGo_pos_bounds text none none false false 0 pr hpr
    omega

/-- Witness for `c10_amended` at a concrete input of tame characters. -/
theorem c10_amended_witness :
    (build_normalized_body_with_map "Ab c".toList).1.length =
      (build_normalized_body_with_map "Ab c".toList).2.length ∧
    (build_normalized_body_with_map "Ab c".toList).2.Chain' (· < ·) ∧
    ∀ i ∈ (build_normalized_body_with_map "Ab c".toList).2, i < "Ab c".toList.length := by
  exact c10_amended "Ab c".toList (by decide)

/-! ## Idempotence of the normalizers (claim C7)

Per-character invariance lemmas.  The character tables are closed terms,
so facts about their entries are decidable; the default branches
(characters outside every table) are handled compositionally. -/

/-- The finite set of base letters produced by `baseOfDiacritic`. -/
theorem baseOfDiacritic_out {c b : Char} (h : baseOfDiacritic c = some b) :
    b ∈ "ACEINOUYaceinouy".toList := by
  unfold baseOfDiacritic at h
  split at h
  all_goals first
    | exact Option.noConfusion h
    | (cases h; decide)

theorem upperTable_find?_mem {c : Char} {p : Char × List Char}
    (h : upperTable.find? (fun q => q.1 == c) = some p) : p ∈ upperTable :=
  List.mem_of_find?_eq_some h

/-- Characters produced by `stripDiacriticsChar` are themselves
strip-invariant and inherit being distinct from a given character the
table never produces, and non-whitespace. -/
theorem stripDiacriticsChar_out {c d : Char} (h : d ∈ stripDiacriticsChar c) :
    stripDiacriticsChar d = [d] ∧ (c ≠ '-' → d ≠ '-') ∧ (c ≠ '.' → d ≠ '.') ∧
      (pyIsSpace c = false → pyIsSpace d = false) := by
  rw [stripDiacriticsChar] at h
  split_ifs at h with hcomb
  · exact absurd h (List.not_mem_nil d)
  · rcases hb : baseOfDiacritic c with _ | b
    · rw [hb] at h
      rcases List.mem_singleton.mp h with rfl
      refine ⟨?_, fun hc => hc, fun hc => hc, fun hc => hc⟩
      rw [stripDiacriticsChar, if_neg hcomb, hb]
    · rw [hb] at h
      rcases List.mem_singleton.mp h with rfl
      have hout := baseOfDiacritic_out hb
      revert hout
      have : ∀ x ∈ "ACEINOUYaceinouy".toList, stripDiacriticsChar x = [x] ∧
          x ≠ '-' ∧ x ≠ '.' ∧ pyIsSpace x = false := by decide
      intro hout
      obtain ⟨h1, h2, h3, h4⟩ := this d hout
      exact ⟨h1, fun _ => h2, fun _ => h3, fun _ => h4⟩

/-- Characters produced by `pyUpperChar` from a strip-invariant character
are strip-invariant, upper-invariant, and inherit distinctness and
non-whitespace. -/
theorem pyUpperChar_out {c d : Char} (hs : stripDiacriticsChar c = [c])
    (h : d ∈ pyUpperChar c) :
    stripDiacriticsChar d = [d] ∧ pyUpperChar d = [d] ∧
      (c ≠ '-' → d ≠ '-') ∧ (c ≠ '.' → d ≠ '.') ∧
      (pyIsSpace c = false → pyIsSpace d = false) := by
  rw [pyUpperChar] at h
  rcases hf : upperTable.find? fun q => q.1 == c with _ | p
  · rw [hf] at h
    rcases List.mem_singleton.mp h with rfl
    refine ⟨hs, ?_, fun hc => hc, fun hc => hc, fun hc => hc⟩
    rw [pyUpperChar, hf]
  · rw [hf] at h
    have hmem := upperTable_find?_mem hf
    have hfst : p.1 = c := by
      have := List.find?_some hf
      simpa using this
    have hsp : stripDiacriticsChar p.1 = [p.1] := by rw [hfst]; exact hs
    have : ∀ q ∈ upperTable, stripDiacriticsChar q.1 = [q.1] →
        ∀ x ∈ q.2, stripDiacriticsChar x = [x] ∧
          pyUpperChar x = [x] ∧ x ≠ '-' ∧ x ≠ '.' ∧ pyIsSpace x = false := by decide
    obtain ⟨h1, h2, h3, h4, h5⟩ := this p hmem hsp d h
    exact ⟨h1, h2, fun _ => h3, fun _ => h4, fun _ => h5⟩

/-- Characters produced by `chNormUnit` are `chNormUnit`-invariant and
inherit distinctness from '-' and '.', and non-whitespace. -/
theorem chNormUnit_out {c d : Char} (h : d ∈ chNormUnit c) :
    chNormUnit d = [d] ∧ (c ≠ '-' → d ≠ '-') ∧ (c ≠ '.' → d ≠ '.') ∧
      (pyIsSpace c = false → pyIsSpace d = false) := by
  rw [chNormUnit, pyUpperStr] at h
  obtain ⟨u, hu, hd⟩ := List.mem_flatten.mp h
  obtain ⟨e, he, hue⟩ := List.mem_map.mp hu
  rw [← hue] at hd
  have hse := stripDiacriticsChar_out he
  have hup := pyUpperChar_out hse.1 hd
  refine ⟨?_, fun hc => hup.2.2.1 (hse.2.1 hc), fun hc => hup.2.2.2.1 (hse.2.2.1 hc),
    fun hc => hup.2.2.2.2 (hse.2.2.2 hc)⟩
  rw [chNormUnit, hup.1, pyUpperStr]
  simp [hup.2.1]

theorem mapflat_id {α : Type} (f : α → List α) :
    ∀ x : List α, (∀ c ∈ x, f c = [c]) → (x.map f).flatten = x := by
  intro x
  induction x with
  | nil => intro _; rfl
  | cons c rest ih =>
    intro h
    rw [List.map_cons, List.flatten_cons, h c (List.mem_cons_self _ _),
      ih fun d hd => h d (List.mem_cons_of_mem _ hd)]
    rfl

theorem subSoftF_nil (fuel : Nat) : subSoftF fuel [] = [] := by
  cases fuel with
  | zero => rfl
  | succ f => rfl

theorem subSoftTry_none {rest : List Char} (h : '-' ∉ rest) : subSoftTry rest = none := by
  cases rest with
  | nil => rfl
  | cons r0 r2 =>
    have hr0 : ¬(r0 = '-') := fun he => h (he ▸ List.mem_cons_self _ _)
    rw [subSoftTry, if_neg hr0]

theorem subSoftF_id : ∀ (fuel : Nat) (l : List Char), '-' ∉ l → subSoftF fuel l = l := by
  intro fuel
  induction fuel with
  | zero => intro l _; rfl
  | succ f ih =>
    intro l hl
    cases l with
    | nil => rfl
    | cons a rest =>
      have ha : ('-' : Char) ∉ rest := fun hm => hl (List.mem_cons_of_mem _ hm)
      rw [subSoftF]
      by_cases haa : asciiAlpha a = true
      · rw [if_pos haa, subSoftTry_none ha, ih rest ha]
      · rw [if_neg haa, ih rest ha]

theorem subAcrGo_id : ∀ (l : List Char) (revLeft : List Char), '.' ∉ l →
    subAcrGo revLeft l = l := by
  intro l
  induction l with
  | nil => intro revLeft _; rfl
  | cons c rest ih =>
    intro revLeft hl
    have hc : c ≠ '.' := fun he => hl (he ▸ List.mem_cons_self _ _)
    have hrest : ('.' : Char) ∉ rest := fun hm => hl (List.mem_cons_of_mem _ hm)
    rw [subAcrGo, if_neg hc, ih (c :: revLeft) hrest]

theorem wordsByAcc_nosep : ∀ (x : List Char) (acc : List Char),
    (∀ c ∈ x, pyIsSpace c = false) → acc ≠ [] →
    wordsByAcc pyIsSpace acc x = [acc.reverse ++ x] := by
  intro x
  induction x with
  | nil =>
    intro acc _ hacc
    rw [wordsByAcc, if_neg hacc]
    simp
  | cons c rest ih =>
    intro acc hx hacc
    have hc : pyIsSpace c = false := hx c (List.mem_cons_self _ _)
    rw [wordsByAcc, if_neg (by simp [hc])]
    rw [ih (c :: acc) (fun d hd => hx d (List.mem_cons_of_mem _ hd))
      (List.cons_ne_nil _ _)]
    simp

theorem pyCollapseWs_wsfree (x : List Char) (hx : ∀ c ∈ x, pyIsSpace c = false) :
    pyCollapseWs x = x := by
  cases x with
  | nil => rfl
  | cons c rest =>
    have hc : pyIsSpace c = false := hx c (List.mem_cons_self _ _)
    show joinWords (wordsByAcc pyIsSpace [] (c :: rest)) = c :: rest
    rw [wordsByAcc, if_neg (by simp [hc])]
    rw [wordsByAcc_nosep rest [c] (fun d hd => hx d (List.mem_cons_of_mem _ hd))
      (List.cons_ne_nil _ _)]
    simp [joinWords]

theorem stripSet_subset {cs : List Char} {x : List Char} {d : Char}
    (h : d ∈ stripSet cs x) : d ∈ x := by
  rw [stripSet, dropTrail] at h
  rw [List.mem_reverse] at h
  have h2 := (List.dropWhile_sublist _).subset h
  rw [List.mem_reverse] at h2
  exact (List.dropWhile_sublist _).subset h2

theorem dropWhile_head_false {p : Char → Bool} : ∀ (y : List Char) (c : Char)
    (t : List Char), y.dropWhile p = c :: t → p c = false := by
  intro y
  induction y with
  | nil => intro c t h; exact absurd h (by simp)
  | cons a y' ih =>
    intro c t h
    rw [List.dropWhile_cons] at h
    split_ifs at h with ha
    · exact ih c t h
    · obtain rfl := (List.cons.inj h).1.symm
      simpa using ha

theorem dropWhile_idem (p : Char → Bool) (y : List Char) :
    (y.dropWhile p).dropWhile p = y.dropWhile p := by
  rcases heq : y.dropWhile p with _ | ⟨c, t⟩
  · rfl
  · rw [List.dropWhile_cons, if_neg (by simp [dropWhile_head_false y c t heq])]

theorem dropTrail_idem (p : Char → Bool) (y : List Char) :
    dropTrail p (dropTrail p y) = dropTrail p y := by
  rw [dropTrail, dropTrail, List.reverse_reverse, dropWhile_idem]

theorem dropWhile_dropTrail_cross (p : Char → Bool) (x : List Char) :
    (dropTrail p (x.dropWhile p)).dropWhile p = dropTrail p (x.dropWhile p) := by
  rcases heq2 : dropTrail p (x.dropWhile p) with _ | ⟨c, t⟩
  · rfl
  · have hsuf := List.dropWhile_suffix (l := (x.dropWhile p).reverse) p
    obtain ⟨w, hw⟩ := hsuf
    have hz : (c :: t) ++ w.reverse = x.dropWhile p := by
      rw [← heq2, dropTrail]
      rw [← List.reverse_append, hw, List.reverse_reverse]
    have hc : p c = false := by
      refine dropWhile_head_false x c (t ++ w.reverse) ?_
      rw [← hz]
      simp
    rw [List.dropWhile_cons, if_neg (by simp [hc])]

theorem stripSet_idem (cs : List Char) (x : List Char) :
    stripSet cs (stripSet cs x) = stripSet cs x := by
  rw [stripSet, stripSet, dropWhile_dropTrail_cross, dropTrail_idem]

theorem mem_of_mem_mapflat {α : Type} {f : α → List α} {x : List α} {d : α}
    (h : d ∈ (x.map f).flatten) : ∃ c ∈ x, d ∈ f c := by
  obtain ⟨u, hu, hd⟩ := List.mem_flatten.mp h
  obtain ⟨c, hc, rfl⟩ := List.mem_map.mp hu
  exact ⟨c, hc, hd⟩

theorem normalize_for_match_idem_restricted (l : List Char)
    (h : ∀ c ∈ l, c ≠ '-' ∧ c ≠ '.' ∧ pyIsSpace c = false) :
    normalize_for_match (normalize_for_match l) = normalize_for_match l := by
  have hs1 : ∀ d ∈ strip_diacritics l,
      stripDiacriticsChar d = [d] ∧ d ≠ '-' ∧ d ≠ '.' ∧ pyIsSpace d = false := by
    intro d hd
    obtain ⟨c, hc, hdc⟩ := mem_of_mem_mapflat hd
    have ho := stripDiacriticsChar_out hdc
    obtain ⟨h1, h2, h3⟩ := h c hc
    exact ⟨ho.1, ho.2.1 h1, ho.2.2.1 h2, ho.2.2.2 h3⟩
  have e1 : sub_soft_hyphen (strip_diacritics l) = strip_diacritics l :=
    subSoftF_id _ _ fun hm => ((hs1 '-' hm).2.1 rfl)
  have e2 : sub_acronym_dots (strip_diacritics l) = strip_diacritics l :=
    subAcrGo_id _ _ fun hm => ((hs1 '.' hm).2.2.1 rfl)
  have e3 : pyCollapseWs (strip_diacritics l) = strip_diacritics l :=
    pyCollapseWs_wsfree _ fun d hd => (hs1 d hd).2.2.2
  have hs2 : ∀ d ∈ pyUpperStr (strip_diacritics l),
      stripDiacriticsChar d = [d] ∧ pyUpperChar d = [d] ∧ d ≠ '-' ∧ d ≠ '.' ∧
        pyIsSpace d = false := by
    intro d hd
    obtain ⟨c, hc, hdc⟩ := mem_of_mem_mapflat hd
    have hsc := hs1 c hc
    have ho := pyUpperChar_out hsc.1 hdc
    exact ⟨ho.1, ho.2.1, ho.2.2.1 hsc.2.1, ho.2.2.2.1 hsc.2.2.1, ho.2.2.2.2 hsc.2.2.2⟩
  have hNdef : normalize_for_match l =
      stripSet " ,.;:—–-".toList (pyUpperStr (strip_diacritics l)) := by
    rw [normalize_for_match, e1, e2, e3]
  have hN : ∀ d ∈ normalize_for_match l,
      stripDiacriticsChar d = [d] ∧ pyUpperChar d = [d] ∧ d ≠ '-' ∧ d ≠ '.' ∧
        pyIsSpace d = false := by
    intro d hd
    rw [hNdef] at hd
    exact hs2 d (stripSet_subset hd)
  have g1 : strip_diacritics (normalize_for_match l) = normalize_for_match l :=
    mapflat_id _ _ fun d hd => (hN d hd).1
  have g2 : sub_soft_hyphen (normalize_for_match l) = normalize_for_match l :=
    subSoftF_id _ _ fun hm => ((hN '-' hm).2.2.1 rfl)
  have g3 : sub_acronym_dots (normalize_for_match l) = normalize_for_match l :=
    subAcrGo_id _ _ fun hm => ((hN '.' hm).2.2.2.1 rfl)
  have g4 : pyCollapseWs (normalize_for_match l) = normalize_for_match l :=
    pyCollapseWs_wsfree _ fun d hd => (hN d hd).2.2.2.2
  have g5 : pyUpperStr (normalize_for_match l) = normalize_for_match l :=
    mapflat_id _ _ fun d hd => (hN d hd).2.1
  calc normalize_for_match (normalize_for_match l)
      = stripSet " ,.;:—–-".toList (normalize_for_match l) := by
        rw [normalize_for_match, g1, g2, g3, g4, g5]
    _ = normalize_for_match l := by
        rw [hNdef, stripSet_idem]

end Gazette

namespace Gazette

theorem nbGo_unit_provenance : ∀ (x : List Char) (prev : Option Char)
    (lo : Option (List Char)) (lws joining : Bool) (pos : Nat),
    ∀ u ∈ (nbGo prev lo lws joining pos x).map Prod.fst,
      u = [' '] ∨ ∃ c ∈ x, pyIsSpace c = false ∧ u = chNormUnit c := by
  intro x
  induction x with
  | nil => intro prev lo lws joining pos u h; exact absurd h (by simp [nbGo])
  | cons c rest ih =>
    intro prev lo lws joining pos u h
    have weaken : (u = [' '] ∨ ∃ d ∈ rest, pyIsSpace d = false ∧ u = chNormUnit d) →
        u = [' '] ∨ ∃ d ∈ c :: rest, pyIsSpace d = false ∧ u = chNormUnit d := by
      rintro (h' | ⟨d, hd, hdw, rfl⟩)
      · exact Or.inl h'
      · exact Or.inr ⟨d, List.mem_cons_of_mem _ hd, hdw, rfl⟩
    rw [nbGo] at h
    split_ifs at h with h1 h2 h3 h4 h5
    · exact weaken (ih _ _ _ _ _ u h)
    · exact weaken (ih _ _ _ _ _ u h)
    · exact weaken (ih _ _ _ _ _ u h)
    · rw [List.map_cons] at h
      rcases List.mem_cons.mp h with rfl | h'
      · exact Or.inl rfl
      · exact weaken (ih _ _ _ _ _ u h')
    · exact weaken (ih _ _ _ _ _ u h)
    · rw [List.map_cons] at h
      rcases List.mem_cons.mp h with rfl | h'
      · exact Or.inr ⟨c, List.mem_cons_self _ _, by simpa using h3, rfl⟩
      · exact weaken (ih _ _ _ _ _ u h')

theorem nbGo_space_chain : ∀ (x : List Char) (prev : Option Char)
    (lo : Option (List Char)) (lws joining : Bool) (pos : Nat),
    (lws = true → lo = some [' ']) →
    (((nbGo prev lo lws joining pos x).map Prod.fst).Chain'
        fun u v => ∀ a ∈ u, ∀ b ∈ v, pyIsSpace a = false ∨ pyIsSpace b = false) ∧
      (lws = true → ∀ u ∈ ((nbGo prev lo lws joining pos x).map Prod.fst).head?,
        ∀ b ∈ u, pyIsSpace b = false) := by
  intro x
  induction x with
  | nil =>
    intro prev lo lws joining pos _
    constructor
    · simp [nbGo]
    · intro _ u hu
      exact absurd hu (by simp [nbGo])
  | cons c rest ih =>
    intro prev lo lws joining pos hstate
    rw [nbGo]
    split_ifs with h1 h2 h3 h4 h5
    · exact ih _ _ _ _ _ hstate
    · exact ih _ _ _ _ _ hstate
    · have hrec := ih (some c) lo true false (pos + 1) fun _ => hstate h4
      exact ⟨hrec.1, fun _ => hrec.2 rfl⟩
    · have hrec := ih (some c) (some [' ']) true false (pos + 1) (fun _ => rfl)
      rw [List.map_cons]
      constructor
      · refine List.chain'_cons'.mpr ⟨?_, hrec.1⟩
        intro u hu a ha b hb
        exact Or.inr (hrec.2 rfl u hu b hb)
      · intro hlws
        exact absurd (hstate hlws) (by simp_all)
    · have hrec := ih (some c) lo false false (pos + 1) (by intro h; exact absurd h (by simp))
      refine ⟨hrec.1, ?_⟩
      intro hlws
      rw [hstate hlws] at h5
      exact absurd h5.2.1 (by decide)
    · have hcs : pyIsSpace c = false := by simpa using h3
      have hfacts : ∀ b ∈ chNormUnit c, pyIsSpace b = false :=
        fun b hb => (chNormUnit_out hb).2.2.2 hcs
      have hrec := ih (some c) (some (chNormUnit c)) false false (pos + 1)
        (by intro h; exact absurd h (by simp))
      rw [List.map_cons]
      constructor
      · refine List.chain'_cons'.mpr ⟨?_, hrec.1⟩
        intro u _ a ha _ _
        exact Or.inl (hfacts a ha)
      · intro _ u hu b hb
        have := Option.mem_def.mp hu
        obtain rfl : chNormUnit c = u := by simpa using this
        exact hfacts b hb

theorem flat_chain {R : Char → Char → Prop} : ∀ us : List (List Char),
    (∀ u ∈ us, u.length = 1) →
    us.Chain' (fun u v => ∀ a ∈ u, ∀ b ∈ v, R a b) →
    us.flatten.Chain' R := by
  intro us
  induction us with
  | nil => intro _ _; simp
  | cons u us' ih =>
    intro hlen hch
    obtain ⟨d, rfl⟩ := List.length_eq_one.mp (hlen u (List.mem_cons_self _ _))
    have hch' := List.chain'_cons'.mp hch
    rw [List.flatten_cons]
    show List.Chain' R (d :: us'.flatten)
    refine List.chain'_cons'.mpr ⟨?_, ih (fun v hv => hlen v (List.mem_cons_of_mem _ hv))
      hch'.2⟩
    intro b hb
    cases us' with
    | nil => exact absurd (Option.mem_def.mp hb) (by simp)
    | cons v us'' =>
      obtain ⟨e, rfl⟩ := List.length_eq_one.mp
        (hlen v (List.mem_cons_of_mem _ (List.mem_cons_self _ _)))
      have hbv : e = b := by
        have := Option.mem_def.mp hb
        simpa using this
      have hbm : b ∈ [e] := by simp [hbv]
      exact hch'.1 [e] (by simp) d (List.mem_singleton.mpr rfl) b hbm

theorem nbGo_canon : ∀ (x : List Char) (prev : Option Char)
    (lo : Option (List Char)) (lws : Bool) (pos : Nat),
    (∀ d ∈ x, chNormUnit d = [d] ∧ d ≠ '-' ∧ d ≠ '.' ∧ (pyIsSpace d = true → d = ' ')) →
    x.Chain' (fun a b => pyIsSpace a = false ∨ pyIsSpace b = false) →
    (lws = true → ∀ c ∈ x.head?, pyIsSpace c = false) →
    ((nbGo prev lo lws false pos x).map Prod.fst).flatten = x := by
  intro x
  induction x with
  | nil => intro prev lo lws pos _ _ _; rfl
  | cons c rest ih =>
    intro prev lo lws pos hmem hchain hhead
    obtain ⟨hcu, hcm, hcd, hcw⟩ := hmem c (List.mem_cons_self _ _)
    have hch' := List.chain'_cons'.mp hchain
    have hmem' : ∀ d ∈ rest, chNormUnit d = [d] ∧ d ≠ '-' ∧ d ≠ '.' ∧
        (pyIsSpace d = true → d = ' ') := fun d hd => hmem d (List.mem_cons_of_mem _ hd)
    rw [nbGo]
    rw [if_neg (by simp)]
    rw [if_neg (by simp [hcm])]
    by_cases hcs : pyIsSpace c = true
    · have hlwsf : lws = false := by
        rcases Bool.eq_false_or_eq_true lws with ht | hf
        · exact absurd (hhead ht c rfl) (by simp [hcs])
        · exact hf
      rw [hlwsf, if_pos hcs, if_neg (by simp)]
      rw [List.map_cons, List.flatten_cons]
      have := ih (some c) (some [' ']) true (pos + 1) hmem' hch'.2
        (fun _ => fun d hd => by
          have h1 := hch'.1 d hd
          rcases h1 with h1 | h1
          · exact absurd hcs (by simp [h1])
          · exact h1)
      rw [this]
      rw [hcw hcs]
      rfl
    · rw [if_neg hcs]
      have hdot : ¬(chNormUnit c = ['.'] ∧ lastOutAlphaUpper lo = true ∧
          nxtUpperAlpha rest = true) := by
        rintro ⟨hd, _, _⟩
        rw [hcu] at hd
        exact hcd (List.cons.inj hd).1
      rw [if_neg hdot]
      rw [List.map_cons, List.flatten_cons, hcu]
      rw [ih (some c) (some [c]) false (pos + 1) hmem' hch'.2
        (by intro h; exact absurd h (by simp))]
      rfl

theorem bnwm_idem_restricted (l : List Char)
    (h : ∀ c ∈ l, c ≠ '-' ∧ c ≠ '.' ∧ (pyIsSpace c = false → (chNormUnit c).length = 1)) :
    (build_normalized_body_with_map ((build_normalized_body_with_map l).1)).1 =
      (build_normalized_body_with_map l).1 := by
  have hlen1 : ∀ u ∈ (nbGo none none false false 0 l).map Prod.fst, u.length = 1 :=
    nbGo_unit_len l none none false false 0 fun c hc hw => (h c hc).2.2 hw
  have hmemN : ∀ d ∈ (build_normalized_body_with_map l).1,
      chNormUnit d = [d] ∧ d ≠ '-' ∧ d ≠ '.' ∧ (pyIsSpace d = true → d = ' ') := by
    intro d hd
    have hd' : d ∈ ((nbGo none none false false 0 l).map Prod.fst).flatten := hd
    obtain ⟨u, hu, hdu⟩ := List.mem_flatten.mp hd'
    rcases nbGo_unit_provenance l none none false false 0 u hu with h' | ⟨c, hc, hcw, rfl⟩
    · obtain rfl : d = ' ' := by
        rw [h'] at hdu
        simpa using hdu
      exact ⟨by decide, by decide, by decide, fun _ => rfl⟩
    · have ho := chNormUnit_out hdu
      refine ⟨ho.1, ho.2.1 (h c hc).1, ho.2.2.1 (h c hc).2.1, ?_⟩
      intro hws
      exact absurd hws (by simp [ho.2.2.2 hcw])
  have hchainN : (build_normalized_body_with_map l).1.Chain'
      fun a b => pyIsSpace a = false ∨ pyIsSpace b = false := by
    have := (nbGo_space_chain l none none false false 0 (by simp)).1
    exact flat_chain _ hlen1 this
  show ((nbGo none none false false 0 (build_normalized_body_with_map l).1).map
      Prod.fst).flatten = (build_normalized_body_with_map l).1
  exact nbGo_canon (build_normalized_body_with_map l).1 none none false 0 hmemN hchainN
    (by simp)

/-- Claim C7 counterexample: neither normalizer is idempotent.  The
phrase-normalizer's single soft-hyphen pass leaves the new joinable
pattern "B- C" behind in "A- B- C"; the buffer-normalizer turns
"X- ̂Y" into "X- Y" (the combining mark yields an empty unit between the
space and 'Y'), and re-normalizing that output joins "X- Y" to "XY". -/
theorem c7_counterexample :
    normalize_for_match (normalize_for_match "A- B- C".toList) ≠
      normalize_for_match "A- B- C".toList ∧
    (build_normalized_body_with_map
        ((build_normalized_body_with_map "X- ̂Y".toList).1)).1 ≠
      (build_normalized_body_with_map "X- ̂Y".toList).1 := by
  refine ⟨by decide, by decide⟩

/-- C7 (amended): both normalizers are idempotent on restricted inputs.
The phrase-normalizer `_normalize_for_match` is idempotent on every input
containing no hyphen, no dot and no whitespace; the buffer normalizer
`_build_normalized_body_with_map` reproduces its own normalized output
exactly when the input contains no hyphen, no dot, and every
non-whitespace character normalizes to exactly one character.  Neither
is idempotent in general (see the hyphen-joining counterexamples). -/
theorem c7_amended (l t : List Char)
    (hl : ∀ c ∈ l, c ≠ '-' ∧ c ≠ '.' ∧ pyIsSpace c = false)
    (ht : ∀ c ∈ t, c ≠ '-' ∧ c ≠ '.' ∧ (pyIsSpace c = false → (chNormUnit c).length = 1)) :
    normalize_for_match (normalize_for_match l) = normalize_for_match l ∧
      (build_normalized_body_with_map ((build_normalized_body_with_map t).1)).1 =
        (build_normalized_body_with_map t).1 :=
  ⟨normalize_for_match_idem_restricted l hl, bnwm_idem_restricted t ht⟩

theorem c7_amended_witness :
    (∀ c ∈ "CÂMARA".toList, c ≠ '-' ∧ c ≠ '.' ∧ pyIsSpace c = false) ∧
      (∀ c ∈ "Câmara de Lobos".toList,
        c ≠ '-' ∧ c ≠ '.' ∧ (pyIsSpace c = false → (chNormUnit c).length = 1)) ∧
      normalize_for_match (normalize_for_match "CÂMARA".toList) =
        normalize_for_match "CÂMARA".toList ∧
      (build_normalized_body_with_map
          ((build_normalized_body_with_map "Câmara de Lobos".toList).1)).1 =
        (build_normalized_body_with_map "Câmara de Lobos".toList).1 := by
  refine ⟨by decide, by decide, ?_⟩
  exact c7_amended "CÂMARA".toList "Câmara de Lobos".toList (by decide) (by decide)

/-! ## Offset-map round trip (claim C6)

Slicing the original text through the index map and re-normalizing the
slice is analyzed by relating a run of `nbGo` on a prefix, a suffix, or
a truncation of the input to the corresponding portion of the full run. -/

theorem nbGo_cons_skip1 {c : Char} {rest : List Char} {prev : Option Char}
    {lo : Option (List Char)} {lws joining : Bool} {pos : Nat}
    (h1 : (joining && pyIsSpace c) = true) :
    nbGo prev lo lws joining pos (c :: rest) =
      nbGo (some c) lo lws true (pos + 1) rest := by
  rw [nbGo, if_pos h1]

theorem nbGo_cons_skip2 {c : Char} {rest : List Char} {prev : Option Char}
    {lo : Option (List Char)} {lws joining : Bool} {pos : Nat}
    (h1 : ¬((joining && pyIsSpace c) = true))
    (h2 : (c = '-' && prevAlpha prev && headAlpha (rest.dropWhile pyIsSpace)) = true) :
    nbGo prev lo lws joining pos (c :: rest) =
      nbGo (some c) lo lws true (pos + 1) rest := by
  rw [nbGo, if_neg h1, if_pos h2]

theorem nbGo_cons_ws_skip {c : Char} {rest : List Char} {prev : Option Char}
    {lo : Option (List Char)} {lws joining : Bool} {pos : Nat}
    (h1 : ¬((joining && pyIsSpace c) = true))
    (h2 : ¬((c = '-' && prevAlpha prev && headAlpha (rest.dropWhile pyIsSpace)) = true))
    (h3 : pyIsSpace c = true) (h4 : lws = true) :
    nbGo prev lo lws joining pos (c :: rest) =
      nbGo (some c) lo true false (pos + 1) rest := by
  rw [nbGo, if_neg h1, if_neg h2, if_pos h3, if_pos h4]

theorem nbGo_cons_ws_emit {c : Char} {rest : List Char} {prev : Option Char}
    {lo : Option (List Char)} {lws joining : Bool} {pos : Nat}
    (h1 : ¬((joining && pyIsSpace c) = true))
    (h2 : ¬((c = '-' && prevAlpha prev && headAlpha (rest.dropWhile pyIsSpace)) = true))
    (h3 : pyIsSpace c = true) (h4 : lws = false) :
    nbGo prev lo lws joining pos (c :: rest) =
      ([' '], pos) :: nbGo (some c) (some [' ']) true false (pos + 1) rest := by
  rw [nbGo, if_neg h1, if_neg h2, if_pos h3, if_neg (by simp [h4])]

theorem nbGo_cons_dot {c : Char} {rest : List Char} {prev : Option Char}
    {lo : Option (List Char)} {lws joining : Bool} {pos : Nat}
    (h1 : ¬((joining && pyIsSpace c) = true))
    (h2 : ¬((c = '-' && prevAlpha prev && headAlpha (rest.dropWhile pyIsSpace)) = true))
    (h3 : ¬(pyIsSpace c = true))
    (h5 : chNormUnit c = ['.'] ∧ lastOutAlphaUpper lo = true ∧ nxtUpperAlpha rest = true) :
    nbGo prev lo lws joining pos (c :: rest) =
      nbGo (some c) lo false false (pos + 1) rest := by
  rw [nbGo, if_neg h1, if_neg h2, if_neg h3, if_pos h5]

theorem nbGo_cons_emit {c : Char} {rest : List Char} {prev : Option Char}
    {lo : Option (List Char)} {lws joining : Bool} {pos : Nat}
    (h1 : ¬((joining && pyIsSpace c) = true))
    (h2 : ¬((c = '-' && prevAlpha prev && headAlpha (rest.dropWhile pyIsSpace)) = true))
    (h3 : ¬(pyIsSpace c = true))
    (h5 : ¬(chNormUnit c = ['.'] ∧ lastOutAlphaUpper lo = true ∧ nxtUpperAlpha rest = true)) :
    nbGo prev lo lws joining pos (c :: rest) =
      (chNormUnit c, pos) :: nbGo (some c) (some (chNormUnit c)) false false (pos + 1) rest := by
  rw [nbGo, if_neg h1, if_neg h2, if_neg h3, if_neg h5]

/-- The emitted units are independent of the running index: starting the
counter at `pos` shifts every recorded index by `pos`. -/
theorem nbGo_pos_shift : ∀ (x : List Char) (prev : Option Char)
    (lo : Option (List Char)) (lws joining : Bool) (pos : Nat),
    nbGo prev lo lws joining pos x =
      (nbGo prev lo lws joining 0 x).map (fun u => (u.1, u.2 + pos)) := by
  intro x
  induction x with
  | nil => intro prev lo lws joining pos; simp [nbGo]
  | cons c rest ih =>
    intro prev lo lws joining pos
    rw [nbGo, nbGo]
    split_ifs with h1 h2 h3 h4 h5
    · rw [ih _ _ _ _ (pos + 1), ih _ _ _ _ (0 + 1), List.map_map]
      apply List.map_congr_left
      intro u _
      simp only [Function.comp_apply, Prod.mk.injEq]
      exact ⟨trivial, by omega⟩
    · rw [ih _ _ _ _ (pos + 1), ih _ _ _ _ (0 + 1), List.map_map]
      apply List.map_congr_left
      intro u _
      simp only [Function.comp_apply, Prod.mk.injEq]
      exact ⟨trivial, by omega⟩
    · rw [ih _ _ _ _ (pos + 1), ih _ _ _ _ (0 + 1), List.map_map]
      apply List.map_congr_left
      intro u _
      simp only [Function.comp_apply, Prod.mk.injEq]
      exact ⟨trivial, by omega⟩
    · rw [ih _ _ _ _ (pos + 1), ih _ _ _ _ (0 + 1), List.map_cons, List.map_map]
      congr 1
      · simp
      · apply List.map_congr_left
        intro u _
        simp only [Function.comp_apply, Prod.mk.injEq]
        exact ⟨trivial, by omega⟩
    · rw [ih _ _ _ _ (pos + 1), ih _ _ _ _ (0 + 1), List.map_map]
      apply List.map_congr_left
      intro u _
      simp only [Function.comp_apply, Prod.mk.injEq]
      exact ⟨trivial, by omega⟩
    · rw [ih _ _ _ _ (pos + 1), ih _ _ _ _ (0 + 1), List.map_cons, List.map_map]
      congr 1
      · simp
      · apply List.map_congr_left
        intro u _
        simp only [Function.comp_apply, Prod.mk.injEq]
        exact ⟨trivial, by omega⟩

/-- While the hyphen-joining flag is set, the leading whitespace run is
consumed silently: every emitted index lies at or past its end. -/
theorem nbGo_join_lb : ∀ (x : List Char) (prev : Option Char)
    (lo : Option (List Char)) (lws : Bool) (pos : Nat) (u : List Char × Nat),
    u ∈ nbGo prev lo lws true pos x →
    pos + (x.takeWhile pyIsSpace).length ≤ u.2 := by
  intro x
  induction x with
  | nil => intro prev lo lws pos u h; exact absurd h (by simp [nbGo])
  | cons c rest ih =>
    intro prev lo lws pos u h
    by_cases hws : pyIsSpace c = true
    · rw [nbGo_cons_skip1 (by simp [hws])] at h
      have := ih (some c) lo lws (pos + 1) u h
      rw [List.takeWhile_cons_of_pos hws]
      simp only [List.length_cons]
      omega
    · rw [List.takeWhile_cons_of_neg hws]
      have := (nbGo_pos_bounds (c :: rest) prev lo lws true pos u h).1
      simpa using this

/-- Truncating the tail commutes with the soft-hyphen look-ahead: the
head after whitespace survives exactly when the whitespace run ends
inside the truncation. -/
theorem headAlpha_dropWhile_take : ∀ (rest : List Char) (n : Nat),
    headAlpha ((rest.take n).dropWhile pyIsSpace) =
      (headAlpha (rest.dropWhile pyIsSpace) &&
        decide ((rest.takeWhile pyIsSpace).length < n)) := by
  intro rest
  induction rest with
  | nil => intro n; simp [headAlpha]
  | cons a l ih =>
    intro n
    cases n with
    | zero => simp [headAlpha]
    | succ m =>
      rw [List.take_succ_cons]
      by_cases ha : pyIsSpace a = true
      · rw [List.dropWhile_cons_of_pos ha, List.dropWhile_cons_of_pos ha,
          List.takeWhile_cons_of_pos ha, ih m]
        simp only [List.length_cons]
        congr 1
        simp [Nat.succ_lt_succ_iff]
      · rw [List.dropWhile_cons_of_neg ha, List.dropWhile_cons_of_neg ha,
          List.takeWhile_cons_of_neg ha]
        simp [headAlpha]

/-- The acronym-dot look-ahead inspects only the immediately following
character, so any truncation keeping at least one character preserves it. -/
theorem nxtUpperAlpha_take : ∀ (rest : List Char) (n : Nat), 1 ≤ n →
    nxtUpperAlpha (rest.take n) = nxtUpperAlpha rest := by
  intro rest n h
  cases rest with
  | nil => rw [List.take_nil]
  | cons d tail =>
    cases n with
    | zero => exact absurd h (by omega)
    | succ m =>
      rw [List.take_succ_cons]
      rfl

theorem guard_take_imp {c : Char} {prev : Option Char} {rest : List Char} {n : Nat}
    (hg : (c = '-' && prevAlpha prev && headAlpha ((rest.take n).dropWhile pyIsSpace)) = true) :
    (c = '-' && prevAlpha prev && headAlpha (rest.dropWhile pyIsSpace)) = true := by
  rw [headAlpha_dropWhile_take] at hg
  simp only [Bool.and_eq_true] at hg ⊢
  exact ⟨hg.1, hg.2.1⟩

theorem guard_take_of {c : Char} {prev : Option Char} {rest : List Char} {n : Nat}
    (hg : (c = '-' && prevAlpha prev && headAlpha (rest.dropWhile pyIsSpace)) = true)
    (hn : (rest.takeWhile pyIsSpace).length < n) :
    (c = '-' && prevAlpha prev && headAlpha ((rest.take n).dropWhile pyIsSpace)) = true := by
  rw [headAlpha_dropWhile_take]
  simp only [Bool.and_eq_true, decide_eq_true_eq] at hg ⊢
  exact ⟨hg.1, hg.2, hn⟩

/-- With all units single characters, dropping units is dropping characters. -/
theorem flatten_drop_len1 : ∀ (us : List (List Char)) (s : Nat),
    (∀ u ∈ us, u.length = 1) → us.flatten.drop s = (us.drop s).flatten := by
  intro us
  induction us with
  | nil => intro s _; simp
  | cons u us' ih =>
    intro s hlen
    obtain ⟨d, rfl⟩ := List.length_eq_one.mp (hlen u (List.mem_cons_self _ _))
    cases s with
    | zero => simp
    | succ m =>
      rw [List.flatten_cons, List.drop_succ_cons]
      show (List.flatten us').drop m = _
      exact ih m fun v hv => hlen v (List.mem_cons_of_mem _ hv)

/-- With all units single characters, taking units is taking characters. -/
theorem flatten_take_len1 : ∀ (us : List (List Char)) (s : Nat),
    (∀ u ∈ us, u.length = 1) → us.flatten.take s = (us.take s).flatten := by
  intro us
  induction us with
  | nil => intro s _; simp
  | cons u us' ih =>
    intro s hlen
    obtain ⟨d, rfl⟩ := List.length_eq_one.mp (hlen u (List.mem_cons_self _ _))
    cases s with
    | zero => simp
    | succ m =>
      rw [List.take_succ_cons, List.flatten_cons]
      show d :: (List.flatten us').take m = d :: (us'.take m).flatten
      rw [ih m fun v hv => hlen v (List.mem_cons_of_mem _ hv)]

theorem get?_shift_drop (c : Char) (rest : List Char)
    (V : List (List Char × Nat)) (k : Nat) (u : List Char × Nat)
    (h : (V.map fun x => ((x.1, x.2 + 1) : List Char × Nat)).get? k = some u) :
    ∃ v, V.get? k = some v ∧ (c :: rest).drop u.2 = rest.drop v.2 := by
  rw [List.get?_map] at h
  obtain ⟨v, hv, huv⟩ := Option.map_eq_some'.mp h
  refine ⟨v, hv, ?_⟩
  rw [← huv]
  rfl

theorem get?_shift_take (c : Char) (rest : List Char)
    (V : List (List Char × Nat)) (k : Nat) (u : List Char × Nat)
    (h : (V.map fun x => ((x.1, x.2 + 1) : List Char × Nat)).get? k = some u) :
    ∃ v, V.get? k = some v ∧ (c :: rest).take (u.2 + 1) = c :: rest.take (v.2 + 1) := by
  rw [List.get?_map] at h
  obtain ⟨v, hv, huv⟩ := Option.map_eq_some'.mp h
  refine ⟨v, hv, ?_⟩
  rw [← huv]
  rfl

theorem map_fst_shift_drop (V : List (List Char × Nat)) (k : Nat) :
    (((V.map fun u => ((u.1, u.2 + 1) : List Char × Nat)).drop k).map Prod.fst) =
      (V.drop k).map Prod.fst := by
  rw [← List.map_drop, List.map_map]
  exact List.map_congr_left fun u _ => rfl

theorem map_shift_take (V : List (List Char × Nat)) (k : Nat) :
    (V.map fun u => ((u.1, u.2 + 1) : List Char × Nat)).take k =
      (V.take k).map fun u => ((u.1, u.2 + 1) : List Char × Nat) :=
  (List.map_take _ V k).symm

/-- Restarting the normalizer at the original index recorded for any
emitted unit reproduces exactly the units from that one on: an emitted
character is processed the same way from the reset state, and the state
it installs is independent of the history. -/
theorem nbGo_suffix : ∀ (x : List Char) (prev : Option Char)
    (lo : Option (List Char)) (lws joining : Bool) (k : Nat) (u : List Char × Nat),
    (nbGo prev lo lws joining 0 x).get? k = some u →
    (nbGo none none false false 0 (x.drop u.2)).map Prod.fst =
      ((nbGo prev lo lws joining 0 x).drop k).map Prod.fst := by
  intro x
  induction x with
  | nil =>
    intro prev lo lws joining k u h
    rw [nbGo] at h
    simp at h
  | cons c rest ih =>
    intro prev lo lws joining k u h
    by_cases h1 : (joining && pyIsSpace c) = true
    · rw [nbGo_cons_skip1 h1] at h ⊢
      rw [Nat.zero_add] at h ⊢
      rw [nbGo_pos_shift rest (some c) lo lws true 1] at h ⊢
      obtain ⟨v, hv, hdrop⟩ := get?_shift_drop c rest _ k u h
      rw [hdrop, map_fst_shift_drop]
      exact ih _ _ _ _ k v hv
    · by_cases h2 : (c = '-' && prevAlpha prev && headAlpha (rest.dropWhile pyIsSpace)) = true
      · rw [nbGo_cons_skip2 h1 h2] at h ⊢
        rw [Nat.zero_add] at h ⊢
        rw [nbGo_pos_shift rest (some c) lo lws true 1] at h ⊢
        obtain ⟨v, hv, hdrop⟩ := get?_shift_drop c rest _ k u h
        rw [hdrop, map_fst_shift_drop]
        exact ih _ _ _ _ k v hv
      · by_cases h3 : pyIsSpace c = true
        · by_cases h4 : lws = true
          · rw [nbGo_cons_ws_skip h1 h2 h3 h4] at h ⊢
            rw [Nat.zero_add] at h ⊢
            rw [nbGo_pos_shift rest (some c) lo true false 1] at h ⊢
            obtain ⟨v, hv, hdrop⟩ := get?_shift_drop c rest _ k u h
            rw [hdrop, map_fst_shift_drop]
            exact ih _ _ _ _ k v hv
          · have h4' : lws = false := by simpa using h4
            rw [nbGo_cons_ws_emit h1 h2 h3 h4'] at h ⊢
            cases k with
            | zero =>
              rw [List.get?_cons_zero] at h
              obtain rfl := Option.some.inj h
              show (nbGo none none false false 0 (c :: rest)).map Prod.fst =
                (([' '], 0) ::
                  nbGo (some c) (some [' ']) true false (0 + 1) rest).map Prod.fst
              rw [nbGo_cons_ws_emit
                (show ¬((false && pyIsSpace c) = true) by simp)
                (show ¬((c = '-' && prevAlpha none &&
                  headAlpha (rest.dropWhile pyIsSpace)) = true) by simp [prevAlpha])
                h3 rfl]
            | succ k' =>
              rw [List.get?_cons_succ] at h
              rw [Nat.zero_add] at h ⊢
              rw [nbGo_pos_shift rest (some c) (some [' ']) true false 1] at h ⊢
              obtain ⟨v, hv, hdrop⟩ := get?_shift_drop c rest _ k' u h
              rw [hdrop, List.drop_succ_cons, map_fst_shift_drop]
              exact ih _ _ _ _ k' v hv
        · by_cases h5 : chNormUnit c = ['.'] ∧ lastOutAlphaUpper lo = true ∧
              nxtUpperAlpha rest = true
          · rw [nbGo_cons_dot h1 h2 h3 h5] at h ⊢
            rw [Nat.zero_add] at h ⊢
            rw [nbGo_pos_shift rest (some c) lo false false 1] at h ⊢
            obtain ⟨v, hv, hdrop⟩ := get?_shift_drop c rest _ k u h
            rw [hdrop, map_fst_shift_drop]
            exact ih _ _ _ _ k v hv
          · rw [nbGo_cons_emit h1 h2 h3 h5] at h ⊢
            cases k with
            | zero =>
              rw [List.get?_cons_zero] at h
              obtain rfl := Option.some.inj h
              show (nbGo none none false false 0 (c :: rest)).map Prod.fst =
                ((chNormUnit c, 0) ::
                  nbGo (some c) (some (chNormUnit c)) false false (0 + 1) rest).map Prod.fst
              rw [nbGo_cons_emit
                (show ¬((false && pyIsSpace c) = true) by simp)
                (show ¬((c = '-' && prevAlpha none &&
                  headAlpha (rest.dropWhile pyIsSpace)) = true) by simp [prevAlpha])
                h3
                (show ¬(chNormUnit c = ['.'] ∧ lastOutAlphaUpper none = true ∧
                  nxtUpperAlpha rest = true) by
                  rintro ⟨-, hlo, -⟩
                  exact absurd hlo (by decide))]
            | succ k' =>
              rw [List.get?_cons_succ] at h
              rw [Nat.zero_add] at h ⊢
              rw [nbGo_pos_shift rest (some c) (some (chNormUnit c)) false false 1] at h ⊢
              obtain ⟨v, hv, hdrop⟩ := get?_shift_drop c rest _ k' u h
              rw [hdrop, List.drop_succ_cons, map_fst_shift_drop]
              exact ih _ _ _ _ k' v hv

/-- Truncating the input one past the original index recorded for any
emitted unit truncates the output at that unit: every look-ahead the
loop performs stays within the truncation. -/
theorem nbGo_prefix : ∀ (x : List Char) (prev : Option Char)
    (lo : Option (List Char)) (lws joining : Bool) (k : Nat) (u : List Char × Nat),
    (nbGo prev lo lws joining 0 x).get? k = some u →
    nbGo prev lo lws joining 0 (x.take (u.2 + 1)) =
      (nbGo prev lo lws joining 0 x).take (k + 1) := by
  intro x
  induction x with
  | nil =>
    intro prev lo lws joining k u h
    rw [nbGo] at h
    simp at h
  | cons c rest ih =>
    intro prev lo lws joining k u h
    by_cases h1 : (joining && pyIsSpace c) = true
    · rw [nbGo_cons_skip1 h1] at h
      rw [Nat.zero_add] at h
      rw [nbGo_pos_shift rest (some c) lo lws true 1] at h
      obtain ⟨v, hv, htake⟩ := get?_shift_take c rest _ k u h
      rw [htake, nbGo_cons_skip1 h1, nbGo_cons_skip1 h1]
      rw [Nat.zero_add]
      rw [nbGo_pos_shift (rest.take (v.2 + 1)) (some c) lo lws true 1,
        nbGo_pos_shift rest (some c) lo lws true 1]
      rw [ih _ _ _ _ k v hv, map_shift_take]
    · by_cases h2 : (c = '-' && prevAlpha prev && headAlpha (rest.dropWhile pyIsSpace)) = true
      · rw [nbGo_cons_skip2 h1 h2] at h
        rw [Nat.zero_add] at h
        rw [nbGo_pos_shift rest (some c) lo lws true 1] at h
        obtain ⟨v, hv, htake⟩ := get?_shift_take c rest _ k u h
        have hvmem : v ∈ nbGo (some c) lo lws true 0 rest := List.get?_mem hv
        have hq := nbGo_join_lb rest (some c) lo lws 0 v hvmem
        have h2t : (c = '-' && prevAlpha prev &&
            headAlpha ((rest.take (v.2 + 1)).dropWhile pyIsSpace)) = true :=
          guard_take_of h2 (by omega)
        rw [htake, nbGo_cons_skip2 h1 h2t, nbGo_cons_skip2 h1 h2]
        rw [Nat.zero_add]
        rw [nbGo_pos_shift (rest.take (v.2 + 1)) (some c) lo lws true 1,
          nbGo_pos_shift rest (some c) lo lws true 1]
        rw [ih _ _ _ _ k v hv, map_shift_take]
      · by_cases h3 : pyIsSpace c = true
        · by_cases h4 : lws = true
          · rw [nbGo_cons_ws_skip h1 h2 h3 h4] at h
            rw [Nat.zero_add] at h
            rw [nbGo_pos_shift rest (some c) lo true false 1] at h
            obtain ⟨v, hv, htake⟩ := get?_shift_take c rest _ k u h
            have h2t : ¬((c = '-' && prevAlpha prev &&
                headAlpha ((rest.take (v.2 + 1)).dropWhile pyIsSpace)) = true) :=
              fun hg => h2 (guard_take_imp hg)
            rw [htake, nbGo_cons_ws_skip h1 h2t h3 h4, nbGo_cons_ws_skip h1 h2 h3 h4]
            rw [Nat.zero_add]
            rw [nbGo_pos_shift (rest.take (v.2 + 1)) (some c) lo true false 1,
              nbGo_pos_shift rest (some c) lo true false 1]
            rw [ih _ _ _ _ k v hv, map_shift_take]
          · have h4' : lws = false := by simpa using h4
            rw [nbGo_cons_ws_emit h1 h2 h3 h4'] at h
            cases k with
            | zero =>
              rw [List.get?_cons_zero] at h
              obtain rfl := Option.some.inj h
              show nbGo prev lo lws joining 0 [c] =
                (nbGo prev lo lws joining 0 (c :: rest)).take (0 + 1)
              rw [nbGo_cons_ws_emit h1
                (show ¬((c = '-' && prevAlpha prev &&
                  headAlpha (([] : List Char).dropWhile pyIsSpace)) = true) by
                  simp [headAlpha])
                h3 h4',
                nbGo_cons_ws_emit h1 h2 h3 h4']
              simp [nbGo]
            | succ k' =>
              rw [List.get?_cons_succ] at h
              rw [Nat.zero_add] at h
              rw [nbGo_pos_shift rest (some c) (some [' ']) true false 1] at h
              obtain ⟨v, hv, htake⟩ := get?_shift_take c rest _ k' u h
              have h2t : ¬((c = '-' && prevAlpha prev &&
                  headAlpha ((rest.take (v.2 + 1)).dropWhile pyIsSpace)) = true) :=
                fun hg => h2 (guard_take_imp hg)
              rw [htake, nbGo_cons_ws_emit h1 h2t h3 h4',
                nbGo_cons_ws_emit h1 h2 h3 h4', List.take_succ_cons]
              rw [Nat.zero_add]
              rw [nbGo_pos_shift (rest.take (v.2 + 1)) (some c) (some [' ']) true false 1,
                nbGo_pos_shift rest (some c) (some [' ']) true false 1]
              rw [ih _ _ _ _ k' v hv, map_shift_take]
        · by_cases h5 : chNormUnit c = ['.'] ∧ lastOutAlphaUpper lo = true ∧
              nxtUpperAlpha rest = true
          · rw [nbGo_cons_dot h1 h2 h3 h5] at h
            rw [Nat.zero_add] at h
            rw [nbGo_pos_shift rest (some c) lo false false 1] at h
            obtain ⟨v, hv, htake⟩ := get?_shift_take c rest _ k u h
            have h2t : ¬((c = '-' && prevAlpha prev &&
                headAlpha ((rest.take (v.2 + 1)).dropWhile pyIsSpace)) = true) :=
              fun hg => h2 (guard_take_imp hg)
            have h5t : chNormUnit c = ['.'] ∧ lastOutAlphaUpper lo = true ∧
                nxtUpperAlpha (rest.take (v.2 + 1)) = true :=
              ⟨h5.1, h5.2.1, by
                rw [nxtUpperAlpha_take rest (v.2 + 1) (by omega)]
                exact h5.2.2⟩
            rw [htake, nbGo_cons_dot h1 h2t h3 h5t, nbGo_cons_dot h1 h2 h3 h5]
            rw [Nat.zero_add]
            rw [nbGo_pos_shift (rest.take (v.2 + 1)) (some c) lo false false 1,
              nbGo_pos_shift rest (some c) lo false false 1]
            rw [ih _ _ _ _ k v hv, map_shift_take]
          · rw [nbGo_cons_emit h1 h2 h3 h5] at h
            cases k with
            | zero =>
              rw [List.get?_cons_zero] at h
              obtain rfl := Option.some.inj h
              show nbGo prev lo lws joining 0 [c] =
                (nbGo prev lo lws joining 0 (c :: rest)).take (0 + 1)
              rw [nbGo_cons_emit h1
                (show ¬((c = '-' && prevAlpha prev &&
                  headAlpha (([] : List Char).dropWhile pyIsSpace)) = true) by
                  simp [headAlpha])
                h3
                (show ¬(chNormUnit c = ['.'] ∧ lastOutAlphaUpper lo = true ∧
                  nxtUpperAlpha ([] : List Char) = true) by
                  rintro ⟨-, -, hn⟩
                  exact absurd hn (by decide)),
                nbGo_cons_emit h1 h2 h3 h5]
              simp [nbGo]
            | succ k' =>
              rw [List.get?_cons_succ] at h
              rw [Nat.zero_add] at h
              rw [nbGo_pos_shift rest (some c) (some (chNormUnit c)) false false 1] at h
              obtain ⟨v, hv, htake⟩ := get?_shift_take c rest _ k' u h
              have h2t : ¬((c = '-' && prevAlpha prev &&
                  headAlpha ((rest.take (v.2 + 1)).dropWhile pyIsSpace)) = true) :=
                fun hg => h2 (guard_take_imp hg)
              have h5t : ¬(chNormUnit c = ['.'] ∧ lastOutAlphaUpper lo = true ∧
                  nxtUpperAlpha (rest.take (v.2 + 1)) = true) :=
                fun hd => h5 ⟨hd.1, hd.2.1,
                  (nxtUpperAlpha_take rest (v.2 + 1) (by omega)) ▸ hd.2.2⟩
              rw [htake, nbGo_cons_emit h1 h2t h3 h5t,
                nbGo_cons_emit h1 h2 h3 h5, List.take_succ_cons]
              rw [Nat.zero_add]
              rw [nbGo_pos_shift (rest.take (v.2 + 1)) (some c) (some (chNormUnit c))
                  false false 1,
                nbGo_pos_shift rest (some c) (some (chNormUnit c)) false false 1]
              rw [ih _ _ _ _ k' v hv, map_shift_take]

/-- Claim C6 counterexample: with input "ßA" the buffer normalizer
returns ("SSA", [0, 1]) - one map entry per input character but two
output characters for 'ß' - so for the normalized span [1, 2) (the
second 'S', produced by 'ß' at index 0) the map points at index 1 and
the round-trip slice is "A", which re-normalizes to "A", not "S". -/
theorem c6_counterexample :
    (build_normalized_body_with_map
        (pySlice "ßA".toList
          ((build_normalized_body_with_map "ßA".toList).2.getD 1 0)
          ((build_normalized_body_with_map "ßA".toList).2.getD (2 - 1) 0 + 1))).1 ≠
      pySlice (build_normalized_body_with_map "ßA".toList).1 1 2 := by decide

/-- C6 (amended): the offset-map round trip holds whenever every
non-whitespace character of the input normalizes to exactly one output
character (so output positions and map entries stay aligned): for every
normalized span [s, e), slicing the original text as
original[idx_map[s] : idx_map[e-1]+1] and re-normalizing the slice
reproduces exactly the normalized span.  Without the single-character
condition the map misaligns (see the 'ß' counterexample). -/
theorem c6_amended (t : List Char)
    (h1 : ∀ c ∈ t, pyIsSpace c = false → (chNormUnit c).length = 1)
    (s e : Nat) (hse : s < e)
    (he : e ≤ (build_normalized_body_with_map t).2.length) :
    (build_normalized_body_with_map
        (pySlice t ((build_normalized_body_with_map t).2.getD s 0)
          ((build_normalized_body_with_map t).2.getD (e - 1) 0 + 1))).1 =
      pySlice (build_normalized_body_with_map t).1 s e := by
  have hlen2 : (build_normalized_body_with_map t).2.length =
      (nbGo none none false false 0 t).length := by
    show ((nbGo none none false false 0 t).map Prod.snd).length = _
    exact List.length_map _ _
  have hsU : s < (nbGo none none false false 0 t).length := by omega
  have heU : e - 1 < (nbGo none none false false 0 t).length := by omega
  obtain ⟨uS, hgS⟩ : ∃ uS, (nbGo none none false false 0 t).get? s = some uS :=
    ⟨_, List.get?_eq_get hsU⟩
  obtain ⟨uE, hgE⟩ : ∃ uE, (nbGo none none false false 0 t).get? (e - 1) = some uE :=
    ⟨_, List.get?_eq_get heU⟩
  have hDs : (build_normalized_body_with_map t).2.getD s 0 = uS.2 := by
    show ((nbGo none none false false 0 t).map Prod.snd).getD s 0 = uS.2
    rw [List.getD_eq_get?, List.get?_map, hgS]
    rfl
  have hDe : (build_normalized_body_with_map t).2.getD (e - 1) 0 = uE.2 := by
    show ((nbGo none none false false 0 t).map Prod.snd).getD (e - 1) 0 = uE.2
    rw [List.getD_eq_get?, List.get?_map, hgE]
    rfl
  have hpre := nbGo_prefix t none none false false (e - 1) uE hgE
  have he1 : e - 1 + 1 = e := by omega
  rw [he1] at hpre
  have hgS' : (nbGo none none false false 0 (t.take (uE.2 + 1))).get? s = some uS := by
    rw [hpre, List.get?_take hse]
    exact hgS
  have hsuf := nbGo_suffix (t.take (uE.2 + 1)) none none false false s uS hgS'
  rw [hpre] at hsuf
  have hslice : pySlice t uS.2 (uE.2 + 1) = (t.take (uE.2 + 1)).drop uS.2 :=
    (List.drop_take (uE.2 + 1) uS.2 t).symm
  have hunits : ∀ u ∈ (nbGo none none false false 0 t).map Prod.fst, u.length = 1 :=
    nbGo_unit_len t none none false false 0 h1
  rw [hDs, hDe]
  show ((nbGo none none false false 0 (pySlice t uS.2 (uE.2 + 1))).map Prod.fst).flatten =
    ((((nbGo none none false false 0 t).map Prod.fst).flatten).drop s).take (e - s)
  rw [hslice, hsuf]
  calc ((((nbGo none none false false 0 t).take e).drop s).map Prod.fst).flatten
      = ((((nbGo none none false false 0 t).take e).map Prod.fst).drop s).flatten := by
        rw [List.map_drop]
    _ = ((((nbGo none none false false 0 t).map Prod.fst).take e).drop s).flatten := by
        rw [List.map_take]
    _ = ((((nbGo none none false false 0 t).map Prod.fst).drop s).take (e - s)).flatten := by
        rw [List.drop_take]
    _ = ((((nbGo none none false false 0 t).map Prod.fst).drop s).flatten).take (e - s) :=
        (flatten_take_len1 _ (e - s)
          fun v hv => hunits v (List.drop_subset _ _ hv)).symm
    _ = ((((nbGo none none false false 0 t).map Prod.fst).flatten).drop s).take (e - s) := by
        rw [← flatten_drop_len1 _ s hunits]

theorem c6_amended_witness :
    (∀ c ∈ "A-B".toList, pyIsSpace c = false → (chNormUnit c).length = 1) ∧
      0 < 2 ∧ 2 ≤ (build_normalized_body_with_map "A-B".toList).2.length ∧
      (build_normalized_body_with_map
          (pySlice "A-B".toList
            ((build_normalized_body_with_map "A-B".toList).2.getD 0 0)
            ((build_normalized_body_with_map "A-B".toList).2.getD (2 - 1) 0 + 1))).1 =
        pySlice (build_normalized_body_with_map "A-B".toList).1 0 2 := by
  refine ⟨by decide, by decide, by decide, ?_⟩
  exact c6_amended "A-B".toList (by decide) 0 2 (by decide) (by decide)

end Gazette
